import Mathlib

/-!
Verification of the ksu-scraper crawler core.

The Python code (src/funcs.py, src/crawler.py) is shallowly embedded below.
Strings are modelled as `List Char` (named `Str`): every Python `str`
operation used by the source is translated to an executable Lean function.
The relevant parts of the Python standard library (`urllib.parse`) and of
`pandas.read_csv` are modelled faithfully for the inputs the claims range
over; file I/O is modelled by passing file contents (and explicit
success/failure flags for writes) as values.
-/

abbrev Str := List Char

/-! ### Generic list utilities mirroring Python string operations -/

/-- Split a list at the first occurrence of `sep`.
Returns the part before the separator and, when the separator occurs,
the part after it. Mirrors Python `s.split(sep, 1)` / `s.find(sep)`. -/
def splitOnFirst (sep : Char) : Str → Str × Option Str
  | [] => ([], none)
  | c :: t =>
    if c = sep then ([], some t)
    else
      let r := splitOnFirst sep t
      (c :: r.1, r.2)

/-! ### Model of the parts of Python `urllib.parse` used by src/funcs.py -/

/-- Characters Python `str.strip()` removes (ASCII whitespace). -/
def pyIsSpace (c : Char) : Bool :=
  c = ' ' || c = '\t' || c = '\n' || c = '\r' || c = '\x0b' || c = '\x0c'

/-- Python `s.strip()`. -/
def pyStrip (l : Str) : Str :=
  ((l.dropWhile pyIsSpace).reverse.dropWhile pyIsSpace).reverse

/-- Python `s.rstrip('/')`: remove every trailing slash. -/
def rstripSlashes (l : Str) : Str :=
  (l.reverse.dropWhile (fun c => c = '/')).reverse

/-- Characters `urlsplit` deletes from the URL (`_UNSAFE_URL_BYTES_TO_REMOVE`:
tab, carriage return, line feed). -/
def keepChar (c : Char) : Bool := !(c = '\t' || c = '\r' || c = '\n')

/-- `urlsplit` preprocessing: strip leading C0-control/space characters, then
delete tab/CR/LF everywhere. -/
def preprocessUrl (u : Str) : Str :=
  (u.dropWhile (fun c => c.toNat ≤ 32)).filter keepChar

/-- Characters allowed in a URL scheme (`urllib.parse.scheme_chars`). -/
def schemeChar (c : Char) : Bool :=
  c.isAlpha || c.isDigit || c = '+' || c = '-' || c = '.'

/-- Scheme recognition step of `urlsplit`: if the text before the first `:`
is a nonempty run of scheme characters starting with a letter, it is the
(lowercased) scheme; otherwise the default scheme applies. -/
def splitScheme (u : Str) (dflt : Str) : Str × Str :=
  match splitOnFirst ':' u with
  | (before, some rest) =>
    if before ≠ [] ∧ (before.headD ' ').isAlpha ∧ before.all schemeChar
    then (before.map Char.toLower, rest)
    else (dflt, u)
  | (_, none) => (dflt, u)

/-- A character that ends the netloc portion (`/`, `?` or `#`). -/
def notNetlocEnd (c : Char) : Bool := !(c = '/' || c = '?' || c = '#')

structure SplitResult where
  scheme : Str
  netloc : Str
  path : Str
  query : Str
  fragment : Str
deriving DecidableEq

/-- Model of `urllib.parse.urlsplit(url, scheme=dflt)` (with
`allow_fragments=True`, the only mode the source uses). The bracketed-host
and netloc Unicode validation (which raise for exotic inputs the crawler
never passes on) are not modelled. -/
def urlsplitModel (u : Str) (dflt : Str) : SplitResult :=
  let u1 := preprocessUrl u
  let sr := splitScheme u1 dflt
  let scheme := sr.1
  let rest := sr.2
  let hasNetloc := rest.take 2 = ['/', '/']
  let netloc := if hasNetloc then (rest.drop 2).takeWhile notNetlocEnd else []
  let rest2 := if hasNetloc then (rest.drop 2).dropWhile notNetlocEnd else rest
  let bf := splitOnFirst '#' rest2
  let pq := splitOnFirst '?' bf.1
  ⟨scheme, netloc, pq.1, (pq.2.getD []), (bf.2.getD [])⟩

/-- Split a list at its last `/`: `some (before, after)` with
`l = before ++ '/' :: after` and no `/` in `after`. -/
def splitAtLastSlash (l : Str) : Option (Str × Str) :=
  match splitOnFirst '/' l.reverse with
  | (afterRev, some beforeRev) => some (beforeRev.reverse, afterRev.reverse)
  | (_, none) => none

/-- Model of `urllib.parse._splitparams`: split `;params` off the last
path segment. -/
def splitParams (p : Str) : Str × Str :=
  match splitAtLastSlash p with
  | some (before, after) =>
    match splitOnFirst ';' after with
    | (a, some b) => (before ++ '/' :: a, b)
    | (_, none) => (p, [])
  | none =>
    match splitOnFirst ';' p with
    | (a, some b) => (a, b)
    | (_, none) => (p, [])

/-- Schemes for which `urlparse` splits params (`urllib.parse.uses_params`). -/
def usesParams : List Str :=
  [[], "ftp".data, "hdl".data, "prospero".data, "http".data, "imap".data,
   "https".data, "shttp".data, "rtsp".data, "rtspu".data, "sip".data,
   "sips".data, "mms".data, "sftp".data, "tel".data]

structure ParseResult where
  scheme : Str
  netloc : Str
  path : Str
  params : Str
  query : Str
  fragment : Str
deriving DecidableEq

/-- Model of `urllib.parse.urlparse(url, scheme=dflt)`. -/
def urlparseModel (u : Str) (dflt : Str) : ParseResult :=
  let s := urlsplitModel u dflt
  if ';' ∈ s.path ∧ s.scheme ∈ usesParams then
    let pp := splitParams s.path
    ⟨s.scheme, s.netloc, pp.1, pp.2, s.query, s.fragment⟩
  else
    ⟨s.scheme, s.netloc, s.path, [], s.query, s.fragment⟩

/-- Model of `urllib.parse.urlunsplit`. -/
def urlunsplitModel (scheme netloc path query fragment : Str) : Str :=
  let u1 :=
    if netloc ≠ [] ∨ path.take 2 = ['/', '/'] then
      '/' :: '/' :: (netloc ++
        (if path ≠ [] ∧ path.headD ' ' ≠ '/' then '/' :: path else path))
    else path
  let u2 := if scheme ≠ [] then scheme ++ ':' :: u1 else u1
  let u3 := if query ≠ [] then u2 ++ '?' :: query else u2
  if fragment ≠ [] then u3 ++ '#' :: fragment else u3

/-- Model of `urllib.parse.urlunparse`. -/
def urlunparseModel (scheme netloc path params query fragment : Str) : Str :=
  urlunsplitModel scheme netloc
    (if params ≠ [] then path ++ ';' :: params else path) query fragment

/-- Schemes that support relative resolution (`urllib.parse.uses_relative`). -/
def usesRelative : List Str :=
  [[], "ftp".data, "http".data, "gopher".data, "nntp".data, "imap".data,
   "wais".data, "file".data, "https".data, "shttp".data, "mms".data,
   "prospero".data, "rtsp".data, "rtspu".data, "sftp".data, "svn".data,
   "svn+ssh".data, "ws".data, "wss".data]

/-- Schemes that use a netloc (`urllib.parse.uses_netloc`). -/
def usesNetloc : List Str :=
  [[], "ftp".data, "http".data, "gopher".data, "nntp".data, "telnet".data,
   "imap".data, "wais".data, "file".data, "mms".data, "https".data,
   "shttp".data, "snews".data, "prospero".data, "rtsp".data, "rtspu".data,
   "rsync".data, "svn".data, "svn+ssh".data, "sftp".data, "nfs".data,
   "git".data, "git+ssh".data, "ws".data, "wss".data]

/-- Relative-path segment merging of `urljoin`: the fold implementing the
`'..'` / `'.'` resolution loop. -/
def resolveSegments (segments : List Str) : List Str :=
  segments.foldl
    (fun acc seg =>
      if seg = ['.', '.'] then acc.dropLast
      else if seg = ['.'] then acc
      else acc ++ [seg]) []

/-- Model of `urllib.parse.urljoin(base, url)`. -/
def urljoinModel (base url : Str) : Str :=
  if base = [] then url
  else if url = [] then base
  else
    let b := urlparseModel base []
    let u := urlparseModel url b.scheme
    if u.scheme ≠ b.scheme ∨ u.scheme ∉ usesRelative then url
    else if u.scheme ∈ usesNetloc ∧ u.netloc ≠ [] then
      urlunparseModel u.scheme u.netloc u.path u.params u.query u.fragment
    else
      let netloc := if u.scheme ∈ usesNetloc then b.netloc else u.netloc
      if u.path = [] ∧ u.params = [] then
        let query := if u.query = [] then b.query else u.query
        urlunparseModel u.scheme netloc b.path b.params query u.fragment
      else
        let baseParts0 := b.path.splitOn '/'
        let baseParts :=
          if baseParts0.getLastD [] ≠ [] then baseParts0.dropLast
          else baseParts0
        let segments :=
          if u.path.headD ' ' = '/' then u.path.splitOn '/'
          else
            match baseParts ++ u.path.splitOn '/' with
            | [] => []
            | [x] => [x]
            | x :: rest =>
              x :: ((rest.dropLast.filter (fun s => s ≠ [])) ++
                    [rest.getLastD []])
        let resolved0 := resolveSegments segments
        let resolved :=
          if segments.getLastD [] = ['.'] ∨ segments.getLastD [] = ['.', '.']
          then resolved0 ++ [[]] else resolved0
        let joined := List.intercalate ['/'] resolved
        let newPath := if joined = [] then ['/'] else joined
        urlunparseModel u.scheme netloc newPath u.params u.query u.fragment

/-! ### Model of the pure URL functions of src/funcs.py -/

/-- The two schemes `normalize_and_clean_url` accepts. -/
def httpSchemes : List Str := ["http".data, "https".data]

/-- Model of `funcs.normalize_and_clean_url(href, base_url)`:
join with the base, validate scheme/netloc, drop params/query/fragment and
conditionally strip trailing slashes. `none` models Python `None`. -/
def normalize_and_clean_url (href base : Str) : Option Str :=
  let absolute := urljoinModel base (pyStrip href)
  let p := urlparseModel absolute []
  if ¬(p.scheme ∈ httpSchemes) ∨ p.netloc = [] then none
  else
    let clean := urlunparseModel p.scheme p.netloc p.path [] [] []
    let schemeHost := p.scheme ++ ':' :: '/' :: '/' :: p.netloc
    some (if schemeHost.length + 1 < clean.length ∧ clean.getLastD ' ' = '/'
          then rstripSlashes clean else clean)

/-- Model of `funcs.get_host_from_url(url)`. -/
def get_host_from_url (url : Str) : Str :=
  (urlparseModel url []).netloc

/-- The denylist of non-HTML extensions in `funcs.is_likely_html_page`. -/
def nonHtmlExtensions : List Str :=
  ["jpg".data, "jpeg".data, "png".data, "gif".data, "bmp".data, "svg".data,
   "webp".data,
   "pdf".data, "doc".data, "docx".data, "xls".data, "xlsx".data, "ppt".data,
   "pptx".data, "ppts".data, "psd".data, "rdf".data, "m4v".data,
   "zip".data, "rar".data, "gz".data, "tar".data, "7z".data,
   "css".data, "js".data,
   "xml".data, "json".data, "csv".data, "txt".data,
   "mp3".data, "mp4".data, "avi".data, "mov".data, "wav".data,
   "exe".data, "dmg".data, "iso".data]

/-- Model of `funcs.is_likely_html_page(url)`. -/
def is_likely_html_page (url : Str) : Bool :=
  let path := (urlparseModel url []).path
  if path = [] ∨ path = ['/'] then true
  else
    let lastSegment := (path.splitOn '/').getLastD []
    if '.' ∈ lastSegment then
      let ext := ((lastSegment.splitOn '.').getLastD []).map Char.toLower
      if ext ∈ nonHtmlExtensions then false else true
    else true

/-- Substring test, mirroring Python's `needle in hay` on strings. -/
def isSubstrOf (needle : Str) : Str → Bool
  | [] => needle.isEmpty
  | c :: t => needle.isPrefixOf (c :: t) || isSubstrOf needle t

/-- Model of `funcs.is_url_valid_for_host(url, required_host_substring)`. -/
def is_url_valid_for_host (url sub : Str) : Bool :=
  if url = [] then false
  else
    let host := get_host_from_url url
    if host = [] then false
    else
      isSubstrOf (sub.map Char.toLower) (host.map Char.toLower) &&
        is_likely_html_page url

/-- Href prefixes skipped before normalization in `funcs.extract_valid_urls`. -/
def skippedHrefPrefixes : List Str :=
  ["javascript:".data, "mailto:".data, "tel:".data, "#".data]

/-- Model of `funcs.extract_valid_urls(soup, base_url, host)`: the parsed
document is abstracted to its list of anchor hrefs; the result models the
built-up `set` as a duplicate-free list. -/
def extract_valid_urls (hrefs : List Str) (base sub : Str) : List Str :=
  hrefs.foldl
    (fun acc href =>
      if href = [] ∨ skippedHrefPrefixes.any (fun p => p.isPrefixOf href)
      then acc
      else
        match normalize_and_clean_url href base with
        | none => acc
        | some u =>
          if u ≠ [] ∧ is_url_valid_for_host u sub then
            if u ∈ acc then acc else acc ++ [u]
          else acc) []

/-! ### Decimal conversion (Python `str(int)` / `pandas.to_numeric`) -/

def digitToChar (d : Nat) : Char := Char.ofNat (48 + d)

def charToDigit (c : Char) : Nat := c.toNat - 48

/-- Big-endian decimal digits of `n`; the fuel argument bounds recursion and
any value above `n` is enough. -/
def natToStrCore : Nat → Nat → Str
  | 0, _ => []
  | fuel + 1, n =>
    if n < 10 then [digitToChar n]
    else natToStrCore fuel (n / 10) ++ [digitToChar (n % 10)]

/-- Python `str(n)` for a natural number. -/
def natToStr (n : Nat) : Str := natToStrCore (n + 1) n

/-- Parse a decimal natural; `none` models `pandas.to_numeric(...,
errors='coerce')` producing NaN for a non-numeric cell (integer cells are
the only numeric form the crawler writes). -/
def strToNat (l : Str) : Option Nat :=
  if l ≠ [] ∧ l.all (fun c => c.isDigit) then
    some (l.foldl (fun a c => 10 * a + charToDigit c) 0)
  else none

/-! ### Model of the index CSV and content store (src/funcs.py I/O part) -/

/-- An index CSV file: `none` when the file does not exist, otherwise the
raw rows (each a list of cells). `write_content_file` appends rows and
never writes a header, so the first appended row is raw data. -/
abbrev CsvFile := Option (List (List Str))

/-- `pandas` column lookup: the FIRST row of a non-empty CSV read with
`read_csv`'s defaults becomes the column labels. -/
def findCol (header : List Str) (name : Str) : Option Nat :=
  header.indexOf? name

/-- Model of `funcs.url_exists_in_index(url, filename)`. `readOk = false`
models an unreadable file (the `except` branches return `False`).
An absent file, an empty file (`EmptyDataError`), a data-less frame
(`df.empty`) and a frame without a `url` column all yield `False`. -/
def url_exists_in_index (url : Str) (file : CsvFile) (readOk : Bool) : Bool :=
  match file with
  | none => false
  | some rows =>
    if ¬readOk then false
    else
      match rows with
      | [] => false
      | header :: data =>
        if data = [] then false
        else
          match findCol header ("url".data) with
          | none => false
          | some i => data.any (fun row => row.getD i [] = url)

/-- Model of `funcs.get_max_index(filename)`: maximum of the numeric values
of the `index` column, with every failure path returning 0. -/
def get_max_index (file : CsvFile) (readOk : Bool) : Nat :=
  match file with
  | none => 0
  | some rows =>
    if ¬readOk then 0
    else
      match rows with
      | [] => 0
      | header :: data =>
        if data = [] then 0
        else
          match findCol header ("index".data) with
          | none => 0
          | some i =>
            let nums := data.filterMap (fun row => strToNat (row.getD i []))
            if nums = [] then 0 else nums.foldl max 0

/-- Filesystem state shared by the index CSV and the content directory
(`files/{index}.txt` contents keyed by index). -/
structure FsState where
  csv : CsvFile
  files : Nat → Option Str

/-- Success/failure of each effect attempted by one `write_content_file`
call (and of the `url_exists_in_index` read it performs). -/
structure WriteEv where
  readOk : Bool
  mkdirOk : Bool
  contentWriteOk : Bool
  indexWriteOk : Bool

/-- `os.path.join(FILES_DIR, f"{index}.txt")`. -/
def contentFilePath (index : Nat) : Str :=
  "files/".data ++ natToStr index ++ ".txt".data

/-- Model of `funcs.write_content_file(content, index, url)`: re-check the
index, then create the directory, write `files/{index}.txt`, and append one
`[index, path, url]` row to the CSV; any failing step returns `False`
keeping the effects already performed. -/
def write_content_file (content : Str) (index : Nat) (url : Str)
    (fs : FsState) (ev : WriteEv) : Bool × FsState :=
  if url_exists_in_index url fs.csv ev.readOk then (false, fs)
  else if ¬ev.mkdirOk then (false, fs)
  else if ¬ev.contentWriteOk then (false, fs)
  else
    let fs1 : FsState :=
      { fs with files := fun j => if j = index then some content else fs.files j }
    if ¬ev.indexWriteOk then (false, fs1)
    else
      (true,
       { fs1 with
         csv := some ((fs1.csv.getD []) ++
                      [[natToStr index, contentFilePath index, url]]) })

/-! ### Model of the queue file (src/funcs.py persistence part) -/

/-- Python text-mode universal newlines on read: `\r\n` and bare `\r`
become `\n`. -/
def univNewlines : Str → Str
  | [] => []
  | '\r' :: '\n' :: t => '\n' :: univNewlines t
  | '\r' :: t => '\n' :: univNewlines t
  | c :: t => c :: univNewlines t

/-- Split file content into lines at `\n` (Python line iteration; the
terminators themselves are consumed by the subsequent `strip`). -/
def splitLines : Str → List Str
  | [] => [[]]
  | '\n' :: t => [] :: splitLines t
  | c :: t => (splitLines t).modifyHead (fun l => c :: l)

/-- Model of `funcs.load_queue_from_file`: `none` is an absent file; each
line is stripped and empty lines are dropped. -/
def load_queue_from_file (file : Option Str) : List Str :=
  match file with
  | none => []
  | some content =>
    ((splitLines (univNewlines content)).map pyStrip).filter (fun l => l ≠ [])

/-- Model of `funcs.save_queue_to_file`: the produced file content, one URL
per line. -/
def save_queue_to_file (queue : List Str) : Str :=
  (queue.map (fun u => u ++ ['\n'])).flatten

/-! ### Model of the crawler state machine (src/crawler.py) -/

/-- In-memory crawler state: the frontier deque, the session set (as a
membership list), the next sequential index and the filesystem. -/
structure CrawlState where
  host : Str
  queue : List Str
  session : List Str
  currentIndex : Nat
  fs : FsState

/-- The dedup gate of `Crawler._process_url` (lines 135-137): enqueue iff
the URL is in neither the session set nor the persistent index; on enqueue
add it to the session set and append it to the queue tail. -/
def tryEnqueue (url : Str) (readOk : Bool) (s : CrawlState) :
    Bool × CrawlState :=
  if url ∉ s.session ∧ ¬url_exists_in_index url s.fs.csv readOk then
    (true, { s with session := s.session ++ [url], queue := s.queue ++ [url] })
  else (false, s)

/-- One seed iteration of `Crawler._initialize_queue`: validity and index
checks, then the session-guarded enqueue. -/
def seedStep (readOk : Bool) (acc : CrawlState × List Str) (url : Str) :
    CrawlState × List Str :=
  let s := acc.1
  if is_url_valid_for_host url s.host ∧
      ¬url_exists_in_index url s.fs.csv readOk then
    if url ∉ s.session then
      ({ s with queue := s.queue ++ [url], session := s.session ++ [url] },
       acc.2 ++ [url])
    else acc
  else acc

/-- Model of `Crawler.__init__`: next index from the persistent index,
queue restored from the queue file, session set rebuilt from the restored
queue, then seeding (only when the restored queue is empty). Also returns
the list of URLs enqueued while seeding. -/
def initCrawler (host : Str) (initialUrls : List Str)
    (queueFile : Option Str) (csv0 : CsvFile) (readOk : Bool) :
    CrawlState × List Str :=
  let q := load_queue_from_file queueFile
  let s0 : CrawlState :=
    ⟨host, q, q, get_max_index csv0 readOk + 1, ⟨csv0, fun _ => none⟩⟩
  if q = [] then initialUrls.foldl (seedStep readOk) (s0, []) else (s0, [])

/-- Events a run is made of: a dequeue by the scheduling loop, a queue
checkpoint, or one worker processing a URL. The fetched page is abstracted
to `none` (fetch/parse failure) or `some (text, hrefs)`. -/
inductive CEvent where
  | dequeue
  | checkpoint
  | process (url : Str) (page : Option (Str × List Str)) (ev : WriteEv)

/-- The enqueue loop over newly discovered URLs in `Crawler._process_url`,
also logging which URLs were enqueued. -/
def enqueueAll (readOk : Bool) (news : List Str)
    (acc : CrawlState × List Str) : CrawlState × List Str :=
  news.foldl
    (fun acc nu =>
      let r := tryEnqueue nu readOk acc.1
      (r.2, if r.1 then acc.2 ++ [nu] else acc.2)) acc

/-- One step of the crawler: models `Crawler._process_url` and the queue
operations of `Crawler.run`. Returns the new state and the URLs enqueued
during the step. -/
def stepCrawl (s : CrawlState) : CEvent → CrawlState × List Str
  | .dequeue => ({ s with queue := s.queue.tail }, [])
  | .checkpoint => (s, [])
  | .process url page ev =>
    if url_exists_in_index url s.fs.csv ev.readOk then (s, [])
    else
      match page with
      | none => (s, [])
      | some pg =>
        let idx := s.currentIndex
        let s1 := { s with currentIndex := s.currentIndex + 1 }
        let wr := write_content_file pg.1 idx url s1.fs ev
        let s2 := { s1 with fs := wr.2 }
        if wr.1 then
          enqueueAll ev.readOk (extract_valid_urls pg.2 url s.host) (s2, [])
        else (s2, [])

/-- Run a sequence of events, concatenating the per-step enqueue logs. -/
def runCrawl (s : CrawlState) : List CEvent → CrawlState × List Str
  | [] => (s, [])
  | e :: es =>
    let r := stepCrawl s e
    let r' := runCrawl r.1 es
    (r'.1, r.2 ++ r'.2)

/-! ### Spec-side definitions (used to compare code behaviour with the
claims' own wording) -/

/-- Likely-HTML as the claims word it: the path is empty or `/`, or the
final path segment has no `.`, or its extension (text after the last `.`,
lowercased) is not in the denylist. -/
def spec_likely_html (url : Str) : Bool :=
  let path := (urlparseModel url []).path
  decide (path = [] ∨ path = ['/']) ||
    (let lastSegment := (path.splitOn '/').getLastD []
     decide ('.' ∉ lastSegment) ||
       decide (((lastSegment.splitOn '.').getLastD []).map Char.toLower
           ∉ nonHtmlExtensions))

/-! ### Lemmas about the list utilities -/

theorem splitOnFirst_of_not_mem {sep : Char} {l : Str} (h : sep ∉ l) :
    splitOnFirst sep l = (l, none) := by
  induction l with
  | nil => rfl
  | cons c t ih =>
    simp only [List.mem_cons, not_or] at h
    simp [splitOnFirst, Ne.symm h.1, ih h.2]

theorem splitOnFirst_append {sep : Char} {a b : Str} (h : sep ∉ a) :
    splitOnFirst sep (a ++ sep :: b) = (a, some b) := by
  induction a with
  | nil => simp [splitOnFirst]
  | cons c t ih =>
    simp only [List.mem_cons, not_or] at h
    simp [splitOnFirst, Ne.symm h.1, ih h.2]

theorem mem_splitOnFirst_left {sep x : Char} {l : Str}
    (h : x ∈ (splitOnFirst sep l).1) : x ∈ l := by
  induction l with
  | nil => simp [splitOnFirst] at h
  | cons c t ih =>
    by_cases hc : c = sep
    · simp [splitOnFirst, hc] at h
    · simp only [splitOnFirst, if_neg hc, List.mem_cons] at h
      rcases h with h | h
      · simp [h]
      · exact List.mem_cons_of_mem _ (ih h)

theorem mem_splitOnFirst_right {sep x : Char} {l r : Str}
    (hr : (splitOnFirst sep l).2 = some r) (h : x ∈ r) : x ∈ l := by
  induction l with
  | nil => simp [splitOnFirst] at hr
  | cons c t ih =>
    by_cases hc : c = sep
    · simp only [splitOnFirst, if_pos hc, Option.some.injEq] at hr
      subst hr; exact List.mem_cons_of_mem _ h
    · simp only [splitOnFirst, if_neg hc] at hr
      exact List.mem_cons_of_mem _ (ih hr)

theorem not_mem_splitOnFirst_left (sep : Char) (l : Str) :
    sep ∉ (splitOnFirst sep l).1 := by
  induction l with
  | nil => simp [splitOnFirst]
  | cons c t ih =>
    by_cases hc : c = sep
    · simp [splitOnFirst, hc]
    · simp [splitOnFirst, if_neg hc, ih, Ne.symm hc]

theorem takeWhile_append_of_all {p : Char → Bool} {a : Str} (b : Str)
    (h : ∀ c ∈ a, p c = true) :
    (a ++ b).takeWhile p = a ++ b.takeWhile p := by
  induction a with
  | nil => simp
  | cons c t ih =>
    have hc : p c = true := h c (by simp)
    simp only [List.cons_append, List.takeWhile_cons, hc]
    simp [ih fun x hx => h x (by simp [hx])]

theorem dropWhile_append_of_all {p : Char → Bool} {a : Str} (b : Str)
    (h : ∀ c ∈ a, p c = true) :
    (a ++ b).dropWhile p = b.dropWhile p := by
  induction a with
  | nil => simp
  | cons c t ih =>
    have hc : p c = true := h c (by simp)
    simp only [List.cons_append, List.dropWhile_cons, hc]
    simp [ih fun x hx => h x (by simp [hx])]

theorem mem_of_mem_takeWhile {p : Char → Bool} {l : Str} {x : Char}
    (h : x ∈ l.takeWhile p) : x ∈ l ∧ p x = true := by
  induction l with
  | nil => simp [List.takeWhile] at h
  | cons c t ih =>
    rw [List.takeWhile_cons] at h
    by_cases hc : p c = true
    · rw [if_pos hc] at h
      rcases List.mem_cons.mp h with h | h
      · subst h; exact ⟨List.mem_cons_self _ _, hc⟩
      · exact ⟨List.mem_cons_of_mem _ (ih h).1, (ih h).2⟩
    · rw [if_neg hc] at h
      simp at h

theorem mem_of_mem_dropWhile {p : Char → Bool} {l : Str} {x : Char}
    (h : x ∈ l.dropWhile p) : x ∈ l := by
  induction l with
  | nil => simp [List.dropWhile] at h
  | cons c t ih =>
    rw [List.dropWhile_cons] at h
    by_cases hc : p c = true
    · rw [if_pos hc] at h
      exact List.mem_cons_of_mem _ (ih h)
    · rw [if_neg hc] at h
      exact h

theorem dropWhile_eq_cons_head_false {p : Char → Bool} {l t : Str} {c : Char}
    (h : l.dropWhile p = c :: t) : p c = false := by
  induction l with
  | nil => simp [List.dropWhile] at h
  | cons d s ih =>
    rw [List.dropWhile_cons] at h
    by_cases hd : p d = true
    · rw [if_pos hd] at h
      exact ih h
    · rw [if_neg hd] at h
      cases h
      simpa using hd

theorem dropWhile_append_of_head_false {p : Char → Bool} {y : Str} (x : Str)
    (h : ∀ c t, y = c :: t → p c = false) :
    (x ++ y).dropWhile p = x.dropWhile p ++ y := by
  induction x with
  | nil =>
    cases y with
    | nil => simp
    | cons c t =>
      rw [List.nil_append, List.dropWhile_cons, if_neg (by simp [h c t rfl])]
      rfl
  | cons c t ih =>
    rw [List.cons_append, List.dropWhile_cons, List.dropWhile_cons]
    by_cases hc : p c = true
    · rw [if_pos hc, if_pos hc, ih]
    · rw [if_neg hc, if_neg hc, List.cons_append]

theorem getLastD_irrel {b : Str} (h : b ≠ []) (d d' : Char) :
    b.getLastD d = b.getLastD d' := by
  cases b with
  | nil => exact absurd rfl h
  | cons x xs => rw [List.getLastD_cons, List.getLastD_cons]

theorem getLastD_append_right {a b : Str} (h : b ≠ []) :
    ∀ d, (a ++ b).getLastD d = b.getLastD d := by
  induction a with
  | nil => intro d; rfl
  | cons c t ih =>
    intro d
    rw [List.cons_append, List.getLastD_cons, ih, getLastD_irrel h]


/-! ### Lemmas: is_likely_html_page matches the claims' wording -/

theorem is_likely_html_page_eq_spec (url : Str) :
    is_likely_html_page url = spec_likely_html url := by
  unfold is_likely_html_page spec_likely_html
  by_cases h0 : (urlparseModel url []).path = [] ∨ (urlparseModel url []).path = ['/']
  · simp [h0]
  · simp only [if_neg h0, decide_eq_false h0, Bool.false_or]
    by_cases hd :
        '.' ∈ (List.splitOn '/' (urlparseModel url []).path).getLastD []
    · rw [if_pos hd, decide_eq_false (not_not_intro hd), Bool.false_or]
      by_cases he :
          (List.map Char.toLower
            ((List.splitOn '.'
              ((List.splitOn '/' (urlparseModel url []).path).getLastD [])).getLastD []))
            ∈ nonHtmlExtensions
      · rw [if_pos he, decide_eq_false (not_not_intro he)]
      · rw [if_neg he, decide_eq_true he]
    · rw [if_neg hd, decide_eq_true hd, Bool.true_or]

/-! ### Lemmas about the queue file model -/

theorem univNewlines_cons_of_ne {c : Char} (t : Str) (hc : c ≠ '\r') :
    univNewlines (c :: t) = c :: univNewlines t := by
  rw [univNewlines.eq_def]
  split
  · simp_all
  · simp_all
  · simp_all
  · rename_i c' t' heq
    obtain ⟨h1, h2⟩ := List.cons.inj heq
    rw [h1, h2]

theorem univNewlines_of_no_cr {l : Str} (h : '\r' ∉ l) :
    univNewlines l = l := by
  induction l with
  | nil => rfl
  | cons c t ih =>
    have hc : c ≠ '\r' := by rintro rfl; exact h (List.mem_cons_self _ _)
    rw [univNewlines_cons_of_ne t hc,
        ih (fun m => h (List.mem_cons_of_mem _ m))]

theorem splitLines_cons_of_ne {c : Char} (t : Str) (hc : c ≠ '\n') :
    splitLines (c :: t) = (splitLines t).modifyHead (fun l => c :: l) := by
  rw [splitLines.eq_def]
  split
  · simp_all
  · simp_all
  · rename_i c' t' heq
    obtain ⟨h1, h2⟩ := List.cons.inj heq
    rw [h1, h2]

theorem splitLines_append {u : Str} (h : '\n' ∉ u) (r : Str) :
    splitLines (u ++ '\n' :: r) = u :: splitLines r := by
  induction u with
  | nil => rfl
  | cons c t ih =>
    have hc : c ≠ '\n' := by rintro rfl; exact h (List.mem_cons_self _ _)
    rw [List.cons_append, splitLines_cons_of_ne _ hc,
        ih (fun m => h (List.mem_cons_of_mem _ m))]
    rfl

theorem load_of_save (q : List Str)
    (h : ∀ u ∈ q, u ≠ [] ∧ '\n' ∉ u ∧ pyStrip u = u) :
    ((splitLines (save_queue_to_file q)).map pyStrip).filter
      (fun l => l ≠ []) = q := by
  induction q with
  | nil => rfl
  | cons u rest ih =>
    have hu := h u (List.mem_cons_self _ _)
    have hsave : save_queue_to_file (u :: rest) =
        u ++ '\n' :: save_queue_to_file rest := by
      simp [save_queue_to_file]
    rw [hsave, splitLines_append hu.2.1, List.map_cons, hu.2.2,
        List.filter_cons_of_pos (by simpa using hu.1),
        ih (fun v hv => h v (List.mem_cons_of_mem _ hv))]

theorem no_cr_in_save {q : List Str} (h : ∀ u ∈ q, '\r' ∉ u) :
    '\r' ∉ save_queue_to_file q := by
  intro hm
  unfold save_queue_to_file at hm
  rw [List.mem_flatten] at hm
  rcases hm with ⟨l, hl, hm⟩
  rw [List.mem_map] at hl
  rcases hl with ⟨u, hu, rfl⟩
  rcases List.mem_append.mp hm with hm | hm
  · exact h u hu hm
  · simp at hm

/-! ### Claim theorems -/

/-- C10: the normalizer keeps the trailing slash of a bare-host URL with
path `/` (the strip condition requires the URL to be longer than
`scheme://host` plus one character) but leaves a bare-host URL without a
slash unchanged, so the same page gets two distinct canonical keys. -/
theorem claim10_bare_host_two_keys :
    normalize_and_clean_url "https://example.org/".data
        "https://example.org/".data = some "https://example.org/".data ∧
    normalize_and_clean_url "https://example.org".data
        "https://example.org/".data = some "https://example.org".data ∧
    ("https://example.org/".data : Str) ≠ "https://example.org".data := by
  refine ⟨by decide, by decide, by decide⟩

/-- C1 (divergence witness): the code never writes a CSV header row, so on
a reload the first data row is taken for the header; `url_exists_in_index`
then finds no `url` column and reports `false` for a URL the previous run
recorded, and `tryEnqueue` consequently enqueues it instead of skipping. -/
theorem claim1_header_bug_divergence :
    (write_content_file "hello".data 1 "https://ksu.edu.sa".data
        ⟨none, fun _ => none⟩ ⟨true, true, true, true⟩).1 = true ∧
    (write_content_file "world".data 2 "https://ksu.edu.sa/admissions".data
        (write_content_file "hello".data 1 "https://ksu.edu.sa".data
          ⟨none, fun _ => none⟩ ⟨true, true, true, true⟩).2
        ⟨true, true, true, true⟩).1 = true ∧
    url_exists_in_index "https://ksu.edu.sa".data
      (write_content_file "world".data 2 "https://ksu.edu.sa/admissions".data
        (write_content_file "hello".data 1 "https://ksu.edu.sa".data
          ⟨none, fun _ => none⟩ ⟨true, true, true, true⟩).2
        ⟨true, true, true, true⟩).2.csv true = false ∧
    (tryEnqueue "https://ksu.edu.sa".data true
      ⟨"ksu.edu.sa".data, [], [], 1,
        (write_content_file "world".data 2 "https://ksu.edu.sa/admissions".data
          (write_content_file "hello".data 1 "https://ksu.edu.sa".data
            ⟨none, fun _ => none⟩ ⟨true, true, true, true⟩).2
          ⟨true, true, true, true⟩).2⟩).1 = true ∧
    get_max_index
      (write_content_file "world".data 2 "https://ksu.edu.sa/admissions".data
        (write_content_file "hello".data 1 "https://ksu.edu.sa".data
          ⟨none, fun _ => none⟩ ⟨true, true, true, true⟩).2
        ⟨true, true, true, true⟩).2.csv true = 0 := by
  refine ⟨by decide, by decide, by decide, by decide, by decide⟩

/-- C7 (counterexample): the snapshot/restore round trip is not the
identity for every queue: the queue holding one empty string restores to
the empty queue. -/
theorem claim7_roundtrip_counterexample :
    load_queue_from_file (some (save_queue_to_file [([] : Str)])) = [] ∧
    ([] : List Str) ≠ [([] : Str)] := by
  refine ⟨by decide, by decide⟩

/-- C7 (amended): the round trip `Restore(Snapshot(Q)) = Q` holds for
every queue whose URLs are non-empty, contain no LF or CR character, and
carry no leading or trailing whitespace. -/
theorem claim7_roundtrip_amended (q : List Str)
    (h : ∀ u ∈ q, u ≠ [] ∧ '\n' ∉ u ∧ '\r' ∉ u ∧ pyStrip u = u) :
    load_queue_from_file (some (save_queue_to_file q)) = q := by
  have e : load_queue_from_file (some (save_queue_to_file q)) =
      ((splitLines (univNewlines (save_queue_to_file q))).map pyStrip).filter
        (fun l => l ≠ []) := rfl
  rw [e, univNewlines_of_no_cr (no_cr_in_save (fun u hu => (h u hu).2.2.1))]
  exact load_of_save q (fun u hu => ⟨(h u hu).1, (h u hu).2.1, (h u hu).2.2.2⟩)

theorem claim7_roundtrip_amended_witness :
    load_queue_from_file (some (save_queue_to_file
      ["https://ksu.edu.sa".data, "https://ksu.edu.sa/admissions".data])) =
      ["https://ksu.edu.sa".data, "https://ksu.edu.sa/admissions".data] :=
  claim7_roundtrip_amended _ (by decide)

/-- C3: `normalize("/about?x=1#foo", "https://example.org/")` resolves the
relative path against the base and drops query and fragment; and any href
whose resolution has a non-http/https scheme or an empty host is rejected
with `none` (the model is a total function, so no exception escapes). -/
theorem claim3_normalize_example_and_rejection :
    normalize_and_clean_url "/about?x=1#foo".data "https://example.org/".data =
      some "https://example.org/about".data ∧
    ∀ href base : Str,
      (¬((urlparseModel (urljoinModel base (pyStrip href)) []).scheme
          ∈ httpSchemes) ∨
        (urlparseModel (urljoinModel base (pyStrip href)) []).netloc = []) →
      normalize_and_clean_url href base = none := by
  refine ⟨by decide, ?_⟩
  intro href base h
  unfold normalize_and_clean_url
  rw [if_pos h]

theorem claim3_witness :
    normalize_and_clean_url "ftp://host/file".data "https://example.org/".data
      = none :=
  claim3_normalize_example_and_rejection.2 _ _ (by decide)

/-- C5 (counterexample): for a URL with an empty host and the empty host
substring, the claimed equivalence fails: the code returns `false` although
the (empty) lowercased host does contain the (empty) lowercased substring
and the URL is judged likely-HTML. -/
theorem claim5_counterexample :
    is_url_valid_for_host "/about".data [] = false ∧
    (isSubstrOf (([] : Str).map Char.toLower)
        ((get_host_from_url "/about".data).map Char.toLower)
      && spec_likely_html "/about".data) = true := by
  refine ⟨by decide, by decide⟩

/-- C5 (amended): for every URL whose host is non-empty (as every
normalizer output is), `IsInScope` equals the claimed conjunction of the
lowercased-host substring test and the likely-HTML heuristic; and the two
concrete examples of the claim hold. -/
theorem claim5_in_scope_amended :
    (∀ url sub : Str, get_host_from_url url ≠ [] →
      is_url_valid_for_host url sub =
        (isSubstrOf (sub.map Char.toLower)
            ((get_host_from_url url).map Char.toLower)
          && spec_likely_html url)) ∧
    is_url_valid_for_host "https://sub.example.org/page".data
      "example.org".data = true ∧
    is_url_valid_for_host "https://example.org/logo.png".data
      "example.org".data = false := by
  refine ⟨?_, by decide, by decide⟩
  intro url sub h
  unfold is_url_valid_for_host
  have hurl : url ≠ [] := by
    rintro rfl
    exact h (by decide)
  rw [if_neg hurl, if_neg h, is_likely_html_page_eq_spec]

theorem claim5_witness :
    is_url_valid_for_host "https://www.ksu.edu.sa/colleges".data
      "ksu.edu.sa".data =
      (isSubstrOf ("ksu.edu.sa".data.map Char.toLower)
          ((get_host_from_url "https://www.ksu.edu.sa/colleges".data).map
            Char.toLower)
        && spec_likely_html "https://www.ksu.edu.sa/colleges".data) :=
  claim5_in_scope_amended.1 _ _ (by decide)

/-- C2 (counterexample): for a resolved URL ending in `//` the code strips
ALL trailing slashes (Python `rstrip('/')`), not all but one: the claim
predicts `https://example.org/a/` here, the code returns
`https://example.org/a`. -/
theorem claim2_counterexample :
    normalize_and_clean_url "https://example.org/a//".data
        "https://example.org/".data = some "https://example.org/a".data ∧
    some ("https://example.org/a".data : Str) ≠
      some "https://example.org/a/".data := by
  refine ⟨by decide, by decide⟩

/-- C4 (counterexample): normalization is not idempotent on every accepted
input. A path with trailing whitespace before the query keeps the space
(`normalize` of `https://h/a ?q=1` is `https://h/a `) but the second pass
strips it; a trailing slash exposing `;` in the new last segment makes the
second pass split it off as params. -/
theorem claim4_counterexample :
    normalize_and_clean_url "https://h/a ?q=1".data "https://h/a ?q=1".data =
      some "https://h/a ".data ∧
    normalize_and_clean_url "https://h/a ".data "https://h/a ".data =
      some "https://h/a".data ∧
    some ("https://h/a".data : Str) ≠ some "https://h/a ".data ∧
    normalize_and_clean_url "https://h/a;x/".data "https://h/a;x/".data =
      some "https://h/a;x".data ∧
    normalize_and_clean_url "https://h/a;x".data "https://h/a;x".data =
      some "https://h/a".data ∧
    some ("https://h/a".data : Str) ≠ some "https://h/a;x".data := by
  refine ⟨by decide, by decide, by decide, by decide, by decide, by decide⟩

/-! ### Decomposition lemmas for splitOnFirst / splitParams / rstrip -/

theorem splitOnFirst_eq_some_decomp {sep : Char} {l r : Str}
    (h : (splitOnFirst sep l).2 = some r) :
    l = (splitOnFirst sep l).1 ++ sep :: r := by
  induction l with
  | nil => simp [splitOnFirst] at h
  | cons c t ih =>
    by_cases hc : c = sep
    · simp only [splitOnFirst, if_pos hc, Option.some.injEq] at h
      subst hc; subst h
      simp [splitOnFirst]
    · simp only [splitOnFirst, if_neg hc] at h ⊢
      rw [List.cons_append, ← ih h]

theorem splitAtLastSlash_some_decomp {l x y : Str}
    (h : splitAtLastSlash l = some (x, y)) : l = x ++ '/' :: y := by
  unfold splitAtLastSlash at h
  rcases e : splitOnFirst '/' l.reverse with ⟨aR, bR?⟩
  rw [e] at h
  rcases bR? with _ | bR
  · simp at h
  · simp only [Option.some.injEq, Prod.mk.injEq] at h
    obtain ⟨hx, hy⟩ := h
    have hd : l.reverse = aR ++ '/' :: bR := by
      have h2 := @splitOnFirst_eq_some_decomp '/' l.reverse bR (by rw [e])
      rw [e] at h2
      exact h2
    have hl : l = bR.reverse ++ '/' :: aR.reverse := by
      have hrr : l = (aR ++ '/' :: bR).reverse := by
        rw [← hd, List.reverse_reverse]
      rw [hrr, List.reverse_append, List.reverse_cons, List.append_assoc]
      rfl
    rw [← hx, ← hy]
    exact hl

theorem splitParams_spec (p : Str) :
    splitParams p = (p, []) ∨
    p = (splitParams p).1 ++ ';' :: (splitParams p).2 := by
  rcases e1 : splitAtLastSlash p with _ | ⟨before, after⟩
  · rcases e2 : splitOnFirst ';' p with ⟨a2, b2?⟩
    rcases b2? with _ | b2
    · left
      simp [splitParams, e1, e2]
    · right
      have ev : splitParams p = (a2, b2) := by
        simp [splitParams, e1, e2]
      have hd := @splitOnFirst_eq_some_decomp ';' p b2 (by rw [e2])
      rw [e2] at hd
      rw [ev]
      exact hd
  · rcases e2 : splitOnFirst ';' after with ⟨a2, b2?⟩
    rcases b2? with _ | b2
    · left
      simp [splitParams, e1, e2]
    · right
      have ev : splitParams p = (before ++ '/' :: a2, b2) := by
        simp [splitParams, e1, e2]
      have hp := splitAtLastSlash_some_decomp e1
      have hd := @splitOnFirst_eq_some_decomp ';' after b2 (by rw [e2])
      rw [e2] at hd
      simp only at hd
      rw [ev]
      simp only
      rw [hp, hd, List.append_assoc]
      rfl

theorem splitParams_fst_eq {p : Str} (h : (splitParams p).1 = p) :
    splitParams p = (p, []) := by
  rcases splitParams_spec p with hs | hs
  · exact hs
  · rw [h] at hs
    have hlen : p.length = p.length + 1 + (splitParams p).2.length := by
      conv_lhs => rw [hs]
      simp
      omega
    omega

theorem rstripSlashes_decomp (l : Str) :
    l = rstripSlashes l ++ (l.reverse.takeWhile (fun c => c = '/')).reverse ∧
    (∀ c ∈ (l.reverse.takeWhile (fun c => c = '/')).reverse, c = '/') := by
  constructor
  · conv_lhs => rw [← l.reverse_reverse,
      ← List.takeWhile_append_dropWhile (p := fun c => c = '/') (l := l.reverse)]
    rw [List.reverse_append]
    rfl
  · intro c hc
    rw [List.mem_reverse] at hc
    have := mem_of_mem_takeWhile hc
    simpa using this.2

theorem rstripSlashes_getLast {l : Str} (h : rstripSlashes l ≠ []) :
    (rstripSlashes l).getLastD ' ' ≠ '/' := by
  unfold rstripSlashes at h ⊢
  rcases e : l.reverse.dropWhile (fun c => c = '/') with _ | ⟨c, t⟩
  · simp [e] at h
  · have hc := dropWhile_eq_cons_head_false e
    have h2 : ((c :: t).reverse).getLastD ' ' = c := by
      rw [List.getLastD_eq_getLast?, List.getLast?_reverse]
      rfl
    rw [h2]
    simpa using hc

theorem mem_rstripSlashes {l : Str} {x : Char} (h : x ∈ rstripSlashes l) :
    x ∈ l := by
  unfold rstripSlashes at h
  rw [List.mem_reverse] at h
  have := mem_of_mem_dropWhile h
  rwa [List.mem_reverse] at this

theorem rstripSlashes_headD {l : Str} (h : rstripSlashes l ≠ []) (d : Char) :
    (rstripSlashes l).headD d = l.headD d := by
  rcases (rstripSlashes_decomp l).1 with hd
  rcases e : rstripSlashes l with _ | ⟨c, t⟩
  · exact absurd e h
  · conv_rhs => rw [hd]
    rw [e]
    rfl

theorem rstripSlashes_append_left {a : Str} (b : Str)
    (hlast : a.getLastD ' ' ≠ '/') :
    rstripSlashes (a ++ b) = a ++ rstripSlashes b := by
  unfold rstripSlashes
  rw [List.reverse_append]
  rw [dropWhile_append_of_head_false b.reverse
      (by
        intro c t hct
        have hgl : a.getLast? = some c := by
          rw [← List.head?_reverse, hct]
          rfl
        have hc : a.getLastD ' ' = c := by
          rw [List.getLastD_eq_getLast?, hgl]
          rfl
        have hne : c ≠ '/' := by rw [← hc]; exact hlast
        simp [hne])]
  rw [List.reverse_append, List.reverse_reverse]

/-! ### Shape lemmas for the urlsplit / urlparse models -/

theorem urlsplit_scheme_eqn (u d : Str) :
    (urlsplitModel u d).scheme = (splitScheme (preprocessUrl u) d).1 := rfl

theorem urlsplit_netloc_eqn (u d : Str) :
    (urlsplitModel u d).netloc =
      (if (splitScheme (preprocessUrl u) d).2.take 2 = ['/', '/']
       then ((splitScheme (preprocessUrl u) d).2.drop 2).takeWhile notNetlocEnd
       else []) := rfl

theorem urlsplit_path_eqn (u d : Str) :
    (urlsplitModel u d).path =
      (splitOnFirst '?'
        (splitOnFirst '#'
          (if (splitScheme (preprocessUrl u) d).2.take 2 = ['/', '/']
           then ((splitScheme (preprocessUrl u) d).2.drop 2).dropWhile
             notNetlocEnd
           else (splitScheme (preprocessUrl u) d).2)).1).1 := rfl

theorem mem_preprocessUrl {u : Str} {x : Char} (h : x ∈ preprocessUrl u) :
    keepChar x = true :=
  (List.mem_filter.mp h).2

theorem mem_splitScheme_rest {u1 d : Str} {x : Char}
    (h : x ∈ (splitScheme u1 d).2) : x ∈ u1 := by
  unfold splitScheme at h
  split at h
  next before rest heq =>
    split at h
    · exact mem_splitOnFirst_right (by rw [heq]) h
    · exact h
  next => exact h

theorem urlsplit_netloc_props {u d : Str} {x : Char}
    (h : x ∈ (urlsplitModel u d).netloc) :
    notNetlocEnd x = true ∧ keepChar x = true := by
  rw [urlsplit_netloc_eqn] at h
  by_cases h2 : (splitScheme (preprocessUrl u) d).2.take 2 = ['/', '/']
  · rw [if_pos h2] at h
    have h3 := mem_of_mem_takeWhile h
    exact ⟨h3.2,
      mem_preprocessUrl (mem_splitScheme_rest (List.mem_of_mem_drop h3.1))⟩
  · rw [if_neg h2] at h
    simp at h

theorem urlsplit_path_no_special (u d : Str) :
    '#' ∉ (urlsplitModel u d).path ∧ '?' ∉ (urlsplitModel u d).path := by
  rw [urlsplit_path_eqn]
  exact ⟨fun h => (not_mem_splitOnFirst_left '#' _) (mem_splitOnFirst_left h),
    not_mem_splitOnFirst_left '?' _⟩

theorem urlsplit_path_sub {u d : Str} {x : Char}
    (h : x ∈ (urlsplitModel u d).path) : keepChar x = true := by
  rw [urlsplit_path_eqn] at h
  have h1 := mem_splitOnFirst_left (mem_splitOnFirst_left h)
  by_cases h2 : (splitScheme (preprocessUrl u) d).2.take 2 = ['/', '/']
  · rw [if_pos h2] at h1
    exact mem_preprocessUrl
      (mem_splitScheme_rest (List.mem_of_mem_drop (mem_of_mem_dropWhile h1)))
  · rw [if_neg h2] at h1
    exact mem_preprocessUrl (mem_splitScheme_rest h1)

theorem urlsplit_netloc_ne_path_shape {u d : Str}
    (h : (urlsplitModel u d).netloc ≠ []) :
    (urlsplitModel u d).path = [] ∨
      (urlsplitModel u d).path.headD ' ' = '/' := by
  rw [urlsplit_netloc_eqn] at h
  rw [urlsplit_path_eqn]
  by_cases hn : (splitScheme (preprocessUrl u) d).2.take 2 = ['/', '/']
  case neg => rw [if_neg hn] at h; exact absurd rfl h
  rw [if_pos hn] at h ⊢
  rcases e : ((splitScheme (preprocessUrl u) d).2.drop 2).dropWhile
      notNetlocEnd with _ | ⟨c, t⟩
  · left
    rfl
  · have hc : notNetlocEnd c = false := dropWhile_eq_cons_head_false e
    have hc2 : ¬c = '/' → ¬c = '?' → c = '#' := by
      unfold notNetlocEnd at hc
      simpa using hc
    have hc3 : c = '/' ∨ c = '?' ∨ c = '#' := by
      by_cases h1 : c = '/'
      · exact Or.inl h1
      · by_cases h2 : c = '?'
        · exact Or.inr (Or.inl h2)
        · exact Or.inr (Or.inr (hc2 h1 h2))
    rcases hc3 with rfl | rfl | rfl
    · right
      simp [splitOnFirst]
    · left
      simp [splitOnFirst]
    · left
      simp [splitOnFirst]

theorem urlparse_scheme_eq (u d : Str) :
    (urlparseModel u d).scheme = (urlsplitModel u d).scheme := by
  unfold urlparseModel
  dsimp only
  split <;> rfl

theorem urlparse_netloc_eq (u d : Str) :
    (urlparseModel u d).netloc = (urlsplitModel u d).netloc := by
  unfold urlparseModel
  dsimp only
  split <;> rfl

theorem urlparse_query_eq (u d : Str) :
    (urlparseModel u d).query = (urlsplitModel u d).query := by
  unfold urlparseModel
  dsimp only
  split <;> rfl

theorem urlparse_fragment_eq (u d : Str) :
    (urlparseModel u d).fragment = (urlsplitModel u d).fragment := by
  unfold urlparseModel
  dsimp only
  split <;> rfl

theorem urlparse_path_sub {u d : Str} {x : Char}
    (h : x ∈ (urlparseModel u d).path) : x ∈ (urlsplitModel u d).path := by
  unfold urlparseModel at h
  dsimp only at h
  split at h
  · rcases splitParams_spec (urlsplitModel u d).path with hs | hs
    · rw [hs] at h
      exact h
    · rw [hs]
      exact List.mem_append.mpr (Or.inl h)
  · exact h

theorem urlparse_path_shape {u d : Str}
    (h : (urlparseModel u d).netloc ≠ []) :
    (urlparseModel u d).path = [] ∨
      (urlparseModel u d).path.headD ' ' = '/' := by
  have hs := urlsplit_netloc_ne_path_shape (u := u) (d := d)
    (by rwa [urlparse_netloc_eq] at h)
  unfold urlparseModel
  dsimp only
  split
  case isFalse => exact hs
  case isTrue hcond =>
    rcases hs with hnil | hhead
    · rw [hnil] at hcond
      simp at hcond
    · rcases e : (splitParams (urlsplitModel u d).path).1 with _ | ⟨c, t⟩
      · exact Or.inl rfl
      · refine Or.inr ?_
        have hc : c = '/' := by
          rcases splitParams_spec (urlsplitModel u d).path with hsp | hsp
          · rw [hsp] at e
            simp only at e
            rw [e] at hhead
            simpa using hhead
          · rw [e] at hsp
            rw [hsp] at hhead
            simpa using hhead
        simp [hc]

theorem dropWhile_cons_false {p : Char → Bool} {c : Char} {t : Str}
    (h : p c = false) : (c :: t).dropWhile p = c :: t := by
  rw [List.dropWhile_cons, h]
  simp

theorem urlsplit_query_eqn (u d : Str) :
    (urlsplitModel u d).query =
      ((splitOnFirst '?'
        (splitOnFirst '#'
          (if (splitScheme (preprocessUrl u) d).2.take 2 = ['/', '/']
           then ((splitScheme (preprocessUrl u) d).2.drop 2).dropWhile
             notNetlocEnd
           else (splitScheme (preprocessUrl u) d).2)).1).2).getD [] := rfl

theorem urlsplit_fragment_eqn (u d : Str) :
    (urlsplitModel u d).fragment =
      ((splitOnFirst '#'
        (if (splitScheme (preprocessUrl u) d).2.take 2 = ['/', '/']
         then ((splitScheme (preprocessUrl u) d).2.drop 2).dropWhile
           notNetlocEnd
         else (splitScheme (preprocessUrl u) d).2)).2).getD [] := rfl

/-- Re-parsing a string of the canonical shape `scheme://netloc + path`
recovers exactly its components, for any default scheme. -/
theorem urlsplit_reparse {s0 : Char} {st nl p : Str} (d : Str)
    (hsw : (s0.toNat ≤ 32) = False)
    (hsk : ∀ c ∈ s0 :: st, keepChar c = true)
    (hscol : ':' ∉ s0 :: st)
    (halpha : s0.isAlpha = true)
    (hallsch : (s0 :: st).all schemeChar = true)
    (hlower : (s0 :: st).map Char.toLower = s0 :: st)
    (hnl : ∀ c ∈ nl, notNetlocEnd c = true ∧ keepChar c = true)
    (hsp : p = [] ∨ p.headD ' ' = '/')
    (hp1 : '#' ∉ p) (hp2 : '?' ∉ p)
    (hpk : ∀ c ∈ p, keepChar c = true) :
    (urlsplitModel ((s0 :: st) ++ ':' :: '/' :: '/' :: (nl ++ p)) d).scheme
        = s0 :: st ∧
    (urlsplitModel ((s0 :: st) ++ ':' :: '/' :: '/' :: (nl ++ p)) d).netloc
        = nl ∧
    (urlsplitModel ((s0 :: st) ++ ':' :: '/' :: '/' :: (nl ++ p)) d).path
        = p ∧
    (urlsplitModel ((s0 :: st) ++ ':' :: '/' :: '/' :: (nl ++ p)) d).query
        = [] ∧
    (urlsplitModel ((s0 :: st) ++ ':' :: '/' :: '/' :: (nl ++ p)) d).fragment
        = [] := by
  have hpre : preprocessUrl ((s0 :: st) ++ ':' :: '/' :: '/' :: (nl ++ p)) =
      (s0 :: st) ++ ':' :: '/' :: '/' :: (nl ++ p) := by
    unfold preprocessUrl
    rw [List.cons_append,
        dropWhile_cons_false (by simp [hsw]), ← List.cons_append]
    rw [List.filter_eq_self.mpr]
    intro c hc
    simp only [List.mem_append, List.mem_cons] at hc
    rcases hc with (h | h) | h | h | h | (h | h)
    · exact hsk c (by simp [h])
    · exact hsk c (List.mem_cons_of_mem _ h)
    · subst h; rfl
    · subst h; rfl
    · subst h; rfl
    · exact (hnl c h).2
    · exact hpk c h
  have hss : splitScheme
      ((s0 :: st) ++ ':' :: '/' :: '/' :: (nl ++ p)) d =
      (s0 :: st, '/' :: '/' :: (nl ++ p)) := by
    unfold splitScheme
    rw [splitOnFirst_append hscol]
    dsimp only
    rw [if_pos ⟨List.cons_ne_nil s0 st,
        by simpa using halpha, hallsch⟩, hlower]
  have htw : (nl ++ p).takeWhile notNetlocEnd = nl := by
    rw [takeWhile_append_of_all p (fun c hc => (hnl c hc).1)]
    rcases hsp with rfl | hh
    · simp
    · rcases p with _ | ⟨c, t⟩
      · simp
      · have hc : c = '/' := by simpa using hh
        subst hc
        rw [List.takeWhile_cons]
        simp [notNetlocEnd]
  have hdw : (nl ++ p).dropWhile notNetlocEnd = p := by
    rw [dropWhile_append_of_all p (fun c hc => (hnl c hc).1)]
    rcases hsp with rfl | hh
    · simp
    · rcases p with _ | ⟨c, t⟩
      · simp
      · have hc : c = '/' := by simpa using hh
        subst hc
        exact dropWhile_cons_false (by simp [notNetlocEnd])
  have htake : List.take 2 ('/' :: '/' :: (nl ++ p)) = ['/', '/'] := rfl
  have hdrop : List.drop 2 ('/' :: '/' :: (nl ++ p)) = nl ++ p := rfl
  refine ⟨?_, ?_, ?_, ?_, ?_⟩
  · rw [urlsplit_scheme_eqn, hpre, hss]
  · rw [urlsplit_netloc_eqn, hpre, hss]
    dsimp only
    rw [if_pos htake, hdrop, htw]
  · rw [urlsplit_path_eqn, hpre, hss]
    dsimp only
    rw [if_pos htake, hdrop, hdw, splitOnFirst_of_not_mem hp1]
    dsimp only
    rw [splitOnFirst_of_not_mem hp2]
  · rw [urlsplit_query_eqn, hpre, hss]
    dsimp only
    rw [if_pos htake, hdrop, hdw, splitOnFirst_of_not_mem hp1]
    dsimp only
    rw [splitOnFirst_of_not_mem hp2]
    rfl
  · rw [urlsplit_fragment_eqn, hpre, hss]
    dsimp only
    rw [if_pos htake, hdrop, hdw, splitOnFirst_of_not_mem hp1]
    rfl

theorem urlparse_params_of_path_eq {u d : Str}
    (h : (urlparseModel u d).path = (urlsplitModel u d).path) :
    (urlparseModel u d).params = [] := by
  unfold urlparseModel at h ⊢
  dsimp only at h ⊢
  by_cases hc : ';' ∈ (urlsplitModel u d).path ∧
      (urlsplitModel u d).scheme ∈ usesParams
  · rw [if_pos hc] at h ⊢
    have h2 : (splitParams (urlsplitModel u d).path).1 =
        (urlsplitModel u d).path := h
    show (splitParams (urlsplitModel u d).path).2 = []
    rw [splitParams_fst_eq h2]
  · rw [if_neg hc]

/-- `urlunparse` with empty params, query and fragment, nonempty netloc and
an empty-or-absolute path is plain concatenation. -/
theorem urlunparse_basic {sch nl p : Str} (hs : sch ≠ []) (hnl : nl ≠ [])
    (hp : p = [] ∨ p.headD ' ' = '/') :
    urlunparseModel sch nl p [] [] [] =
      sch ++ ':' :: '/' :: '/' :: (nl ++ p) := by
  have hslash : ¬(p ≠ [] ∧ p.headD ' ' ≠ '/') := by
    rcases hp with rfl | hh
    · simp
    · intro hcon
      exact hcon.2 hh
  have hfalse : (([] : Str) ≠ []) = False := by simp
  unfold urlunparseModel urlunsplitModel
  simp only [hfalse, ite_false]
  rw [if_pos (Or.inl hnl), if_neg hslash, if_pos hs]

theorem getLastD_mem {l : Str} (h : l ≠ []) : ∀ d, l.getLastD d ∈ l := by
  induction l with
  | nil => exact absurd rfl h
  | cons c t ih =>
    intro d
    rw [List.getLastD_cons]
    rcases t with _ | ⟨x, xs⟩
    · simp [List.getLastD]
    · exact List.mem_cons_of_mem _ (ih (List.cons_ne_nil x xs) c)

/-- Structure of every successful `normalize_and_clean_url` result: the
claimed scheme/netloc checks hold and the output is
`scheme://netloc + path`, with all trailing slashes stripped exactly when
the path is longer than one character and ends in `/`. -/
theorem normalize_some_eq {href base v : Str}
    (h : normalize_and_clean_url href base = some v) :
    (urlparseModel (urljoinModel base (pyStrip href)) []).scheme
        ∈ httpSchemes ∧
    (urlparseModel (urljoinModel base (pyStrip href)) []).netloc ≠ [] ∧
    v = (urlparseModel (urljoinModel base (pyStrip href)) []).scheme ++
        ':' :: '/' :: '/' ::
        ((urlparseModel (urljoinModel base (pyStrip href)) []).netloc ++
         (if 1 < (urlparseModel (urljoinModel base (pyStrip href)) []).path.length ∧
             (urlparseModel (urljoinModel base (pyStrip href)) []).path.getLastD ' ' = '/'
          then rstripSlashes
            (urlparseModel (urljoinModel base (pyStrip href)) []).path
          else (urlparseModel (urljoinModel base (pyStrip href)) []).path)) := by
  unfold normalize_and_clean_url at h
  dsimp only at h
  set P := urlparseModel (urljoinModel base (pyStrip href)) [] with hP
  by_cases hc : ¬(P.scheme ∈ httpSchemes) ∨ P.netloc = []
  · rw [if_pos hc] at h
    exact absurd h (by simp)
  · rw [if_neg hc] at h
    push_neg at hc
    obtain ⟨hsch, hnl⟩ := hc
    refine ⟨hsch, hnl, ?_⟩
    have hps : P.path = [] ∨ P.path.headD ' ' = '/' :=
      urlparse_path_shape (u := urljoinModel base (pyStrip href)) (d := [])
        hnl
    have hsne : P.scheme ≠ [] := by
      have hs2 := hsch
      simp only [httpSchemes, List.mem_cons, List.not_mem_nil,
        or_false] at hs2
      rcases hs2 with h1 | h1 <;> simp [h1]
    have hclean : urlunparseModel P.scheme P.netloc P.path [] [] [] =
        P.scheme ++ ':' :: '/' :: '/' :: (P.netloc ++ P.path) :=
      urlunparse_basic hsne hnl hps
    rw [hclean] at h
    have hA : P.scheme ++ ':' :: '/' :: '/' :: (P.netloc ++ P.path) =
        (P.scheme ++ ':' :: '/' :: '/' :: P.netloc) ++ P.path := by
      simp [List.append_assoc]
    have hlencond :
        ((P.scheme ++ ':' :: '/' :: '/' :: P.netloc).length + 1 <
          (P.scheme ++ ':' :: '/' :: '/' :: (P.netloc ++ P.path)).length) ↔
        1 < P.path.length := by
      simp only [List.length_append, List.length_cons]
      omega
    have hlastcond : P.path ≠ [] →
        (P.scheme ++ ':' :: '/' :: '/' ::
          (P.netloc ++ P.path)).getLastD ' ' = P.path.getLastD ' ' := by
      intro hne
      rw [hA, getLastD_append_right hne]
    have hcond_iff :
        ((P.scheme ++ ':' :: '/' :: '/' :: P.netloc).length + 1 <
            (P.scheme ++ ':' :: '/' :: '/' ::
              (P.netloc ++ P.path)).length ∧
          (P.scheme ++ ':' :: '/' :: '/' ::
            (P.netloc ++ P.path)).getLastD ' ' = '/') ↔
        (1 < P.path.length ∧ P.path.getLastD ' ' = '/') := by
      constructor
      · rintro ⟨h1, h2⟩
        have hp1 := hlencond.mp h1
        have hne : P.path ≠ [] := by
          intro e
          rw [e] at hp1
          simp at hp1
        exact ⟨hp1, by rw [← hlastcond hne]; exact h2⟩
      · rintro ⟨h1, h2⟩
        have hne : P.path ≠ [] := by
          intro e
          rw [e] at h1
          simp at h1
        exact ⟨hlencond.mpr h1, by rw [hlastcond hne]; exact h2⟩
    have hv : v = (if (P.scheme ++ ':' :: '/' :: '/' :: P.netloc).length + 1 <
          (P.scheme ++ ':' :: '/' :: '/' :: (P.netloc ++ P.path)).length ∧
          (P.scheme ++ ':' :: '/' :: '/' ::
            (P.netloc ++ P.path)).getLastD ' ' = '/'
        then rstripSlashes
          (P.scheme ++ ':' :: '/' :: '/' :: (P.netloc ++ P.path))
        else P.scheme ++ ':' :: '/' :: '/' :: (P.netloc ++ P.path)) :=
      (Option.some.inj h).symm
    have hnllast : (P.scheme ++ ':' :: '/' :: '/' :: P.netloc).getLastD ' '
        ≠ '/' := by
      have hmem : P.netloc.getLastD ' ' ∈ P.netloc := getLastD_mem hnl ' '
      have hprop := urlsplit_netloc_props
        (u := urljoinModel base (pyStrip href)) (d := [])
        (x := P.netloc.getLastD ' ')
        (by rw [← urlparse_netloc_eq]; exact hmem)
      have hne : P.netloc.getLastD ' ' ≠ '/' := by
        intro e
        have := hprop.1
        rw [e] at this
        simp [notNetlocEnd] at this
      have hB : P.scheme ++ ':' :: '/' :: '/' :: P.netloc =
          (P.scheme ++ [':', '/', '/']) ++ P.netloc := by
        simp [List.append_assoc]
      rw [hB, getLastD_append_right hnl]
      exact hne
    by_cases hcc : 1 < P.path.length ∧ P.path.getLastD ' ' = '/'
    · rw [if_pos hcc]
      rw [hv, if_pos (hcond_iff.mpr hcc), hA,
          rstripSlashes_append_left P.path hnllast]
      simp [List.append_assoc]
    · rw [if_neg hcc]
      rw [hv, if_neg (fun hx => hcc (hcond_iff.mp hx))]

/-- The source's trailing-slash condition (on the assembled URL) matches
the path-level condition. -/
theorem strip_cond_iff {sch nl p : Str} :
    ((sch ++ ':' :: '/' :: '/' :: nl).length + 1 <
        (sch ++ ':' :: '/' :: '/' :: (nl ++ p)).length ∧
      (sch ++ ':' :: '/' :: '/' :: (nl ++ p)).getLastD ' ' = '/') ↔
    (1 < p.length ∧ p.getLastD ' ' = '/') := by
  have hA : sch ++ ':' :: '/' :: '/' :: (nl ++ p) =
      (sch ++ ':' :: '/' :: '/' :: nl) ++ p := by
    simp [List.append_assoc]
  have hlen : ((sch ++ ':' :: '/' :: '/' :: nl).length + 1 <
      (sch ++ ':' :: '/' :: '/' :: (nl ++ p)).length) ↔ 1 < p.length := by
    simp only [List.length_append, List.length_cons]
    omega
  constructor
  · rintro ⟨h1, h2⟩
    have hp1 := hlen.mp h1
    have hne : p ≠ [] := by
      intro e
      rw [e] at hp1
      simp at hp1
    rw [hA, getLastD_append_right hne] at h2
    exact ⟨hp1, h2⟩
  · rintro ⟨h1, h2⟩
    have hne : p ≠ [] := by
      intro e
      rw [e] at h1
      simp at h1
    refine ⟨hlen.mpr h1, ?_⟩
    rw [hA, getLastD_append_right hne]
    exact h2

/-- `urlparse` in terms of its `urlsplit` components, when the params split
would leave the path unchanged. -/
theorem urlparse_components {u d : Str} {sch nl p : Str}
    (h1 : (urlsplitModel u d).scheme = sch)
    (h2 : (urlsplitModel u d).netloc = nl)
    (h3 : (urlsplitModel u d).path = p)
    (h4 : (urlsplitModel u d).query = [])
    (h5 : (urlsplitModel u d).fragment = [])
    (hps : ¬(';' ∈ p ∧ sch ∈ usesParams) ∨ (splitParams p).1 = p) :
    urlparseModel u d = ⟨sch, nl, p, [], [], []⟩ := by
  unfold urlparseModel
  dsimp only
  rw [h1, h2, h3, h4, h5]
  rcases hps with hps | hps
  · rw [if_neg hps]
  · by_cases hcnd : ';' ∈ p ∧ sch ∈ usesParams
    · rw [if_pos hcnd, splitParams_fst_eq hps]
    · rw [if_neg hcnd]

theorem normalize_no_query_frag {href base v : Str}
    (h : normalize_and_clean_url href base = some v) :
    '?' ∉ v ∧ '#' ∉ v := by
  obtain ⟨hsch, hnl, hv⟩ := normalize_some_eq h
  have hs2 := hsch
  simp only [httpSchemes, List.mem_cons, List.not_mem_nil, or_false] at hs2
  have hnq := urlsplit_path_no_special (urljoinModel base (pyStrip href)) []
  have key : ∀ x : Char, x ∉ ("http".data : Str) →
      x ∉ ("https".data : Str) → x ≠ ':' → x ≠ '/' →
      notNetlocEnd x = false →
      x ∉ (urlsplitModel (urljoinModel base (pyStrip href)) []).path →
      x ∉ v := by
    intro x k1 k2 k3 k4 k5 k6 hmem
    rw [hv] at hmem
    simp only [List.mem_append, List.mem_cons] at hmem
    rcases hmem with hm | hm | hm | hm | hm | hm
    · rcases hs2 with h1 | h1 <;> rw [h1] at hm
      · exact k1 hm
      · exact k2 hm
    · exact k3 hm
    · exact k4 hm
    · exact k4 hm
    · have hp := (urlsplit_netloc_props
        (u := urljoinModel base (pyStrip href)) (d := [])
        (by rw [← urlparse_netloc_eq]; exact hm)).1
      rw [k5] at hp
      exact absurd hp (by simp)
    · have hxp : x ∈
          (urlparseModel (urljoinModel base (pyStrip href)) []).path := by
        split at hm
        · exact mem_rstripSlashes hm
        · exact hm
      exact k6 (urlparse_path_sub hxp)
  exact ⟨key '?' (by decide) (by decide) (by decide) (by decide) (by decide)
      hnq.2,
    key '#' (by decide) (by decide) (by decide) (by decide) (by decide)
      hnq.1⟩

/-- C2 (amended): for every successful normalization the query string and
fragment are stripped and the path kept; when the resulting path is
non-empty, not just `/`, and ends in a slash, ALL trailing slashes are
stripped (Python `rstrip('/')`), not just one. -/
theorem claim2_normalizer_amended : ∀ href base v : Str,
    normalize_and_clean_url href base = some v →
    ('?' ∉ v ∧ '#' ∉ v) ∧
    v = (urlparseModel (urljoinModel base (pyStrip href)) []).scheme ++
        ':' :: '/' :: '/' ::
        ((urlparseModel (urljoinModel base (pyStrip href)) []).netloc ++
         (if 1 < (urlparseModel (urljoinModel base
               (pyStrip href)) []).path.length ∧
             (urlparseModel (urljoinModel base
               (pyStrip href)) []).path.getLastD ' ' = '/'
          then rstripSlashes
            (urlparseModel (urljoinModel base (pyStrip href)) []).path
          else (urlparseModel (urljoinModel base (pyStrip href)) []).path)) :=
  fun _ _ _ h => ⟨normalize_no_query_frag h, (normalize_some_eq h).2.2⟩

theorem claim2_amended_witness :
    '?' ∉ ("https://example.org/a".data : Str) ∧
    '#' ∉ ("https://example.org/a".data : Str) :=
  (claim2_normalizer_amended "https://example.org/a//?x=1#f".data
    "https://example.org/".data "https://example.org/a".data (by decide)).1

/-- A string of the canonical output shape that survives `strip` and the
params split unchanged is a fixed point of the normalizer. -/
theorem normalize_fixed_point {v sch nl pp : Str}
    (hv : v = sch ++ ':' :: '/' :: '/' :: (nl ++ pp))
    (hsch : sch ∈ httpSchemes)
    (hnl : nl ≠ [])
    (hnlprops : ∀ c ∈ nl, notNetlocEnd c = true ∧ keepChar c = true)
    (hppshape : pp = [] ∨ pp.headD ' ' = '/')
    (hppnoh : '#' ∉ pp) (hppnoq : '?' ∉ pp)
    (hppkeep : ∀ c ∈ pp, keepChar c = true)
    (hnoc : ¬(1 < pp.length ∧ pp.getLastD ' ' = '/'))
    (hstrip : pyStrip v = v)
    (hpath : (urlparseModel v []).path = (urlsplitModel v []).path) :
    normalize_and_clean_url v v = some v := by
  have hvne : v ≠ [] := by
    rw [hv]
    simp
  have hs2 := hsch
  simp only [httpSchemes, List.mem_cons, List.not_mem_nil, or_false] at hs2
  have main : ∀ (s0 : Char) (st : Str),
      sch = s0 :: st →
      (s0.toNat ≤ 32) = False →
      (∀ c ∈ s0 :: st, keepChar c = true) →
      ':' ∉ s0 :: st →
      s0.isAlpha = true →
      (s0 :: st).all schemeChar = true →
      (s0 :: st).map Char.toLower = s0 :: st →
      (s0 :: st) ∈ usesRelative →
      (s0 :: st) ∈ usesNetloc →
      (s0 :: st) ∈ httpSchemes →
      normalize_and_clean_url v v = some v := by
    intro s0 st hseq hw hk hcol hal hasch hlow hrel hnet hhttp
    have hveq : v = (s0 :: st) ++ ':' :: '/' :: '/' :: (nl ++ pp) := by
      rw [hv, hseq]
    have hcomp : ∀ d, (urlsplitModel v d).scheme = s0 :: st ∧
        (urlsplitModel v d).netloc = nl ∧
        (urlsplitModel v d).path = pp ∧
        (urlsplitModel v d).query = [] ∧
        (urlsplitModel v d).fragment = [] := by
      intro d
      rw [hveq]
      exact urlsplit_reparse d hw hk hcol hal hasch hlow hnlprops hppshape
        hppnoh hppnoq hppkeep
    have hps : ¬(';' ∈ pp ∧ (s0 :: st) ∈ usesParams) ∨
        (splitParams pp).1 = pp := by
      by_cases hcnd : ';' ∈ pp ∧ (s0 :: st) ∈ usesParams
      · right
        have hpe : (urlparseModel v []).path = pp := by
          rw [hpath, (hcomp []).2.2.1]
        unfold urlparseModel at hpe
        dsimp only at hpe
        rw [(hcomp []).2.2.1, (hcomp []).1] at hpe
        rw [if_pos hcnd] at hpe
        exact hpe
      · left
        exact hcnd
    have hparse : ∀ d,
        urlparseModel v d = ⟨s0 :: st, nl, pp, [], [], []⟩ := fun d =>
      urlparse_components (hcomp d).1 (hcomp d).2.1 (hcomp d).2.2.1
        (hcomp d).2.2.2.1 (hcomp d).2.2.2.2 hps
    have hunp : urlunparseModel (s0 :: st) nl pp [] [] [] = v := by
      rw [urlunparse_basic (List.cons_ne_nil s0 st) hnl hppshape, hveq]
    have hjoin : urljoinModel v v = v := by
      unfold urljoinModel
      rw [if_neg hvne, if_neg hvne]
      dsimp only
      rw [hparse []]
      dsimp only
      rw [hparse (s0 :: st)]
      dsimp only
      rw [if_neg (by simp [hrel])]
      rw [if_pos ⟨hnet, hnl⟩]
      exact hunp
    have hcfalse :
        ¬(((s0 :: st) ++ ':' :: '/' :: '/' :: nl).length + 1 <
            ((s0 :: st) ++ ':' :: '/' :: '/' :: (nl ++ pp)).length ∧
          ((s0 :: st) ++ ':' :: '/' :: '/' ::
            (nl ++ pp)).getLastD ' ' = '/') :=
      fun hx => hnoc (strip_cond_iff.mp hx)
    unfold normalize_and_clean_url
    rw [hstrip, hjoin]
    dsimp only
    rw [hparse []]
    dsimp only
    rw [if_neg (by
      rw [not_or, not_not]
      exact ⟨hhttp, hnl⟩)]
    rw [hunp, hveq, if_neg hcfalse]
  rcases hs2 with h1 | h1
  · exact main 'h' ['t', 't', 'p'] (by rw [h1]) (eq_false (by decide))
      (by decide) (by decide) (by decide) (by decide) (by decide)
      (by decide) (by decide) (by decide)
  · exact main 'h' ['t', 't', 'p', 's'] (by rw [h1]) (eq_false (by decide))
      (by decide) (by decide) (by decide) (by decide) (by decide)
      (by decide) (by decide) (by decide)

/-- C4 (amended): normalization is idempotent on its own output for every
accepted input whose normalized form v has no stray leading/trailing
whitespace and whose params split leaves the path unchanged (no `;` in the
final path segment). -/
theorem claim4_idempotent_amended : ∀ u v : Str,
    normalize_and_clean_url u u = some v →
    pyStrip v = v →
    (urlparseModel v []).path = (urlsplitModel v []).path →
    normalize_and_clean_url v v = some v := by
  intro u v h hstrip hpath
  obtain ⟨hsch, hnl, hv⟩ := normalize_some_eq h
  refine normalize_fixed_point hv hsch hnl
    (fun _ hc => urlsplit_netloc_props
      (by rw [← urlparse_netloc_eq]; exact hc))
    ?_ ?_ ?_ ?_ ?_ hstrip hpath
  · split
    case isTrue hcond =>
      by_cases hne : rstripSlashes
          (urlparseModel (urljoinModel u (pyStrip u)) []).path = []
      · exact Or.inl hne
      · right
        rw [rstripSlashes_headD hne ' ']
        rcases urlparse_path_shape (u := urljoinModel u (pyStrip u))
            (d := []) hnl with hni | hh
        · rw [hni] at hne
          exact absurd rfl hne
        · exact hh
    case isFalse _ =>
      exact urlparse_path_shape (u := urljoinModel u (pyStrip u)) (d := [])
        hnl
  · intro hm
    have hm2 : '#' ∈ (urlparseModel (urljoinModel u (pyStrip u)) []).path := by
      split at hm
      · exact mem_rstripSlashes hm
      · exact hm
    exact (urlsplit_path_no_special _ _).1 (urlparse_path_sub hm2)
  · intro hm
    have hm2 : '?' ∈ (urlparseModel (urljoinModel u (pyStrip u)) []).path := by
      split at hm
      · exact mem_rstripSlashes hm
      · exact hm
    exact (urlsplit_path_no_special _ _).2 (urlparse_path_sub hm2)
  · intro c hc
    have hm2 : c ∈ (urlparseModel (urljoinModel u (pyStrip u)) []).path := by
      split at hc
      · exact mem_rstripSlashes hc
      · exact hc
    exact urlsplit_path_sub (urlparse_path_sub hm2)
  · split
    case isTrue hcond =>
      rintro ⟨hl, hlast⟩
      have hne : rstripSlashes
          (urlparseModel (urljoinModel u (pyStrip u)) []).path ≠ [] := by
        intro e
        rw [e] at hl
        simp at hl
      exact rstripSlashes_getLast hne hlast
    case isFalse hcond => exact hcond

theorem claim4_amended_witness :
    normalize_and_clean_url "https://example.org/about".data
      "https://example.org/about".data =
      some "https://example.org/about".data :=
  claim4_idempotent_amended "https://example.org/about?x=1#f".data
    "https://example.org/about".data (by decide) (by decide) (by decide)

/-! ### Decimal roundtrip and the index CSV lemmas -/

theorem charToDigit_digitToChar {d : Nat} (h : d < 10) :
    charToDigit (digitToChar d) = d := by
  interval_cases d <;> decide

theorem isDigit_digitToChar {d : Nat} (h : d < 10) :
    (digitToChar d).isDigit = true := by
  interval_cases d <;> decide

theorem strToNat_append_digit {a : Str} {m d : Nat} (hd : d < 10)
    (h : strToNat a = some m) :
    strToNat (a ++ [digitToChar d]) = some (10 * m + d) := by
  unfold strToNat at h ⊢
  by_cases hc : a ≠ [] ∧ a.all (fun c => c.isDigit)
  · rw [if_pos hc] at h
    have hm : a.foldl (fun acc c => 10 * acc + charToDigit c) 0 = m := by
      simpa using h
    rw [if_pos ⟨by simp, by
      rw [List.all_append]
      simp [hc.2, isDigit_digitToChar hd]⟩]
    rw [List.foldl_append]
    simp [hm, charToDigit_digitToChar hd]
  · rw [if_neg hc] at h
    exact absurd h (by simp)

theorem strToNat_natToStrCore {fuel n : Nat} (h : n < fuel) :
    strToNat (natToStrCore fuel n) = some n := by
  induction fuel generalizing n with
  | zero => omega
  | succ f ih =>
    simp only [natToStrCore]
    by_cases h10 : n < 10
    · rw [if_pos h10]
      unfold strToNat
      rw [if_pos ⟨by simp, by simp [isDigit_digitToChar h10]⟩]
      simp [charToDigit_digitToChar h10]
    · rw [if_neg h10]
      have hlt : n / 10 < f := by
        have h2 : n / 10 < n := Nat.div_lt_self (by omega) (by omega)
        omega
      rw [strToNat_append_digit (Nat.mod_lt _ (by omega)) (ih hlt)]
      congr 1
      omega

theorem strToNat_natToStr (n : Nat) : strToNat (natToStr n) = some n :=
  strToNat_natToStrCore (Nat.lt_succ_self n)

theorem filterMap_rows_index (records : List (Nat × Str × Str)) :
    (records.map (fun rec => [natToStr rec.1, rec.2.1, rec.2.2])).filterMap
      (fun row => strToNat (row.getD 0 [])) =
      records.map (fun rec => rec.1) := by
  induction records with
  | nil => rfl
  | cons r t ih =>
    have h1 : strToNat (([natToStr r.1, r.2.1, r.2.2] : List Str).getD 0 [])
        = some r.1 := strToNat_natToStr r.1
    simp only [List.map_cons, List.filterMap_cons, h1]
    rw [ih]

theorem seedStep_currentIndex (r : Bool) (acc : CrawlState × List Str)
    (url : Str) : ((seedStep r acc url).1).currentIndex =
      acc.1.currentIndex := by
  unfold seedStep
  dsimp only
  split
  · split
    · rfl
    · rfl
  · rfl

theorem seedFold_currentIndex (r : Bool) (urls : List Str)
    (acc : CrawlState × List Str) :
    ((urls.foldl (seedStep r) acc).1).currentIndex =
      acc.1.currentIndex := by
  induction urls generalizing acc with
  | nil => rfl
  | cons u t ih => rw [List.foldl_cons, ih, seedStep_currentIndex]

/-- C8: index reads fail open — an absent, unreadable or empty index gives
`NextIndex` 0 (so the orchestrator's first index, after its own +1, is 1)
and `Contains` false everywhere; a readable well-formed index gives the
maximum recorded sequential index and exact membership of the url column. -/
theorem claim8_index_reads :
    (∀ r : Bool, get_max_index none r = 0) ∧
    (∀ (r : Bool) (url : Str), url_exists_in_index url none r = false) ∧
    (∀ rows, get_max_index (some rows) false = 0) ∧
    (∀ rows (url : Str), url_exists_in_index url (some rows) false = false) ∧
    (get_max_index (some []) true = 0) ∧
    (∀ url : Str, url_exists_in_index url (some []) true = false) ∧
    (∀ (host : Str) (seeds : List Str) (qf : Option Str) (r : Bool),
      (initCrawler host seeds qf none r).1.currentIndex = 1) ∧
    (∀ records : List (Nat × Str × Str), records ≠ [] →
      get_max_index
        (some (["index".data, "path".data, "url".data] ::
          records.map (fun rec => [natToStr rec.1, rec.2.1, rec.2.2])))
        true = (records.map (fun rec => rec.1)).foldl max 0) ∧
    (∀ (records : List (Nat × Str × Str)) (url : Str), records ≠ [] →
      (url_exists_in_index url
        (some (["index".data, "path".data, "url".data] ::
          records.map (fun rec => [natToStr rec.1, rec.2.1, rec.2.2])))
        true = true ↔ ∃ rec ∈ records, rec.2.2 = url)) := by
  refine ⟨fun r => rfl, fun r url => rfl, ?_, ?_, rfl, fun url => rfl,
    ?_, ?_, ?_⟩
  · intro rows
    simp [get_max_index]
  · intro rows url
    simp [url_exists_in_index]
  · intro host seeds qf r
    unfold initCrawler
    dsimp only
    split
    · rw [seedFold_currentIndex]
      rfl
    · rfl
  · intro records hne
    unfold get_max_index
    dsimp only
    rw [if_neg (by simp : ¬¬true = true)]
    have hd : records.map (fun rec => [natToStr rec.1, rec.2.1, rec.2.2])
        ≠ [] := by simpa using hne
    rw [if_neg hd]
    have hcol : findCol ["index".data, "path".data, "url".data]
        ("index".data) = some 0 := by decide
    rw [hcol]
    dsimp only
    rw [filterMap_rows_index]
    rw [if_neg (by simpa using hne)]
  · intro records url hne
    unfold url_exists_in_index
    dsimp only
    rw [if_neg (by simp : ¬¬true = true)]
    have hd : records.map (fun rec => [natToStr rec.1, rec.2.1, rec.2.2])
        ≠ [] := by simpa using hne
    rw [if_neg hd]
    have hcol : findCol ["index".data, "path".data, "url".data]
        ("url".data) = some 2 := by decide
    rw [hcol]
    dsimp only
    simp only [List.any_eq_true, List.mem_map, decide_eq_true_eq,
      Prod.exists]
    constructor
    · rintro ⟨x, ⟨a, b, c, hm, rfl⟩, hx⟩
      have hc : c = url := by simpa [List.getD] using hx
      subst hc
      exact ⟨a, b, c, hm, rfl⟩
    · rintro ⟨a, b, c, hm, hc⟩
      subst hc
      exact ⟨[natToStr a, b, c], ⟨a, b, c, hm, rfl⟩, by simp [List.getD]⟩

theorem claim8_witness :
    get_max_index
      (some (["index".data, "path".data, "url".data] ::
        ([(1, "files/1.txt".data, "https://ksu.edu.sa".data),
          (5, "files/5.txt".data,
            "https://ksu.edu.sa/admissions".data)] :
          List (Nat × Str × Str)).map
            (fun rec => [natToStr rec.1, rec.2.1, rec.2.2])))
      true = 5 := by
  rw [claim8_index_reads.2.2.2.2.2.2.2.1 _ (by decide)]
  decide

/-- C9: the write path re-checks the index immediately before writing and
fails without effects when the URL is already indexed; a genuine write
creates the content file first and then appends exactly one index row; an
index-append failure still returns failure with the content file already
on disk; any failing step yields failure; and a failed write makes the
worker enqueue none of the page's links. -/
theorem claim9_append_guarded :
    (∀ (content : Str) (index : Nat) (url : Str) (fs : FsState)
        (ev : WriteEv),
      url_exists_in_index url fs.csv ev.readOk = true →
      write_content_file content index url fs ev = (false, fs)) ∧
    (∀ (content : Str) (index : Nat) (url : Str) (fs : FsState)
        (ev : WriteEv),
      url_exists_in_index url fs.csv ev.readOk = false →
      ev.mkdirOk = true → ev.contentWriteOk = true →
      ev.indexWriteOk = false →
      write_content_file content index url fs ev =
        (false, ⟨fs.csv,
          fun j => if j = index then some content else fs.files j⟩)) ∧
    (∀ (content : Str) (index : Nat) (url : Str) (fs : FsState)
        (ev : WriteEv),
      url_exists_in_index url fs.csv ev.readOk = false →
      ev.mkdirOk = true → ev.contentWriteOk = true →
      ev.indexWriteOk = true →
      write_content_file content index url fs ev =
        (true, ⟨some ((fs.csv.getD []) ++
            [[natToStr index, contentFilePath index, url]]),
          fun j => if j = index then some content else fs.files j⟩)) ∧
    (∀ (content : Str) (index : Nat) (url : Str) (fs : FsState)
        (ev : WriteEv),
      ev.mkdirOk = false ∨ ev.contentWriteOk = false ∨
        ev.indexWriteOk = false →
      (write_content_file content index url fs ev).1 = false) ∧
    (∀ (s : CrawlState) (url text : Str) (hrefs : List Str) (ev : WriteEv),
      (write_content_file text s.currentIndex url s.fs ev).1 = false →
      (stepCrawl s (.process url (some (text, hrefs)) ev)).1.queue =
          s.queue ∧
      (stepCrawl s (.process url (some (text, hrefs)) ev)).1.session =
          s.session) := by
  refine ⟨?_, ?_, ?_, ?_, ?_⟩
  · intro content index url fs ev hex
    unfold write_content_file
    rw [if_pos hex]
  · intro content index url fs ev hex hm hc hi
    unfold write_content_file
    rw [if_neg (by simp [hex]), if_neg (by simp [hm]), if_neg (by simp [hc])]
    dsimp only
    rw [if_pos (by simp [hi])]
  · intro content index url fs ev hex hm hc hi
    unfold write_content_file
    rw [if_neg (by simp [hex]), if_neg (by simp [hm]), if_neg (by simp [hc])]
    dsimp only
    rw [if_neg (by simp [hi])]
  · intro content index url fs ev herr
    unfold write_content_file
    by_cases hex : url_exists_in_index url fs.csv ev.readOk
    · rw [if_pos hex]
    · rw [if_neg hex]
      by_cases hmk : ev.mkdirOk = true
      · rw [if_neg (by simp [hmk])]
        by_cases hcw : ev.contentWriteOk = true
        · rw [if_neg (by simp [hcw])]
          dsimp only
          have hi : ev.indexWriteOk = false := by
            rcases herr with he | he | he
            · rw [he] at hmk
              exact absurd hmk (by simp)
            · rw [he] at hcw
              exact absurd hcw (by simp)
            · exact he
          rw [if_pos (by simp [hi])]
        · rw [if_pos (by simpa using hcw)]
      · rw [if_pos (by simpa using hmk)]
  · intro s url text hrefs ev hw
    unfold stepCrawl
    dsimp only
    by_cases hex : url_exists_in_index url s.fs.csv ev.readOk
    · rw [if_pos hex]
      exact ⟨rfl, rfl⟩
    · rw [if_neg hex]
      rw [hw, if_neg (by simp)]
      exact ⟨rfl, rfl⟩

theorem claim9_witness :
    (write_content_file "hello".data 1 "https://ksu.edu.sa".data
        ⟨none, fun _ => none⟩ ⟨true, true, true, false⟩).1 = false ∧
    (stepCrawl ⟨"ksu.edu.sa".data, [], [], 1, ⟨none, fun _ => none⟩⟩
        (.process "https://ksu.edu.sa".data
          (some ("hello".data, ["/a".data]))
          ⟨true, true, true, false⟩)).1.queue = [] :=
  ⟨claim9_append_guarded.2.2.2.1 _ _ _ _ _ (Or.inr (Or.inr rfl)),
   (claim9_append_guarded.2.2.2.2
      ⟨"ksu.edu.sa".data, [], [], 1, ⟨none, fun _ => none⟩⟩ _ _ _ _
      (by decide)).1⟩

/-! ### Session/queue invariants of the crawler (claim C6) -/

theorem tryEnqueue_spec (url : Str) (r : Bool) (s : CrawlState) :
    ((tryEnqueue url r s).1 = true →
      url ∉ s.session ∧
      (tryEnqueue url r s).2.session = s.session ++ [url] ∧
      (tryEnqueue url r s).2.queue = s.queue ++ [url]) ∧
    ((tryEnqueue url r s).1 = false → (tryEnqueue url r s).2 = s) := by
  unfold tryEnqueue
  by_cases hc : url ∉ s.session ∧ ¬url_exists_in_index url s.fs.csv r
  · rw [if_pos hc]
    exact ⟨fun _ => ⟨hc.1, rfl, rfl⟩, fun h => by simp at h⟩
  · rw [if_neg hc]
    exact ⟨fun h => by simp at h, fun _ => rfl⟩

theorem enqueueAll_cons (r : Bool) (nu : Str) (t : List Str)
    (s : CrawlState) (lg : List Str) :
    enqueueAll r (nu :: t) (s, lg) =
      enqueueAll r t ((tryEnqueue nu r s).2,
        if (tryEnqueue nu r s).1 then lg ++ [nu] else lg) := by
  unfold enqueueAll
  rw [List.foldl_cons]

theorem enqueueAll_inv (r : Bool) (news : List Str) :
    ∀ (s : CrawlState) (G lg : List Str),
      ((G ++ lg).Nodup ∧ (∀ u ∈ G ++ lg, u ∈ s.session) ∧
        (∀ u ∈ s.queue, u ∈ s.session)) →
      (((G ++ (enqueueAll r news (s, lg)).2).Nodup ∧
        (∀ u ∈ G ++ (enqueueAll r news (s, lg)).2,
          u ∈ (enqueueAll r news (s, lg)).1.session) ∧
        (∀ u ∈ (enqueueAll r news (s, lg)).1.queue,
          u ∈ (enqueueAll r news (s, lg)).1.session)) ∧
       (∀ x ∈ s.session, x ∈ (enqueueAll r news (s, lg)).1.session)) := by
  induction news with
  | nil => exact fun s G lg h => ⟨h, fun x hx => hx⟩
  | cons nu t ih =>
    intro s G lg h
    rw [enqueueAll_cons]
    rcases hfire : (tryEnqueue nu r s).1 with _ | _
    · rw [if_neg (by simp [hfire])]
      have hstay := (tryEnqueue_spec nu r s).2 hfire
      rw [hstay]
      exact ih s G lg h
    · rw [if_pos (by simp [hfire])]
      obtain ⟨hnotin, hsess, hqueue⟩ := (tryEnqueue_spec nu r s).1 hfire
      have hinv2 : ((G ++ (lg ++ [nu])).Nodup ∧
          (∀ u ∈ G ++ (lg ++ [nu]), u ∈ (tryEnqueue nu r s).2.session) ∧
          (∀ u ∈ (tryEnqueue nu r s).2.queue,
            u ∈ (tryEnqueue nu r s).2.session)) := by
        obtain ⟨hnd, hsub, hq⟩ := h
        refine ⟨?_, ?_, ?_⟩
        · rw [← List.append_assoc]
          rw [List.nodup_append]
          refine ⟨hnd, List.nodup_singleton nu, ?_⟩
          intro a ha hb
          rw [List.mem_singleton] at hb
          subst hb
          exact hnotin (hsub a ha)
        · intro u hu
          rw [← List.append_assoc] at hu
          rcases List.mem_append.mp hu with hu | hu
          · rw [hsess]
            exact List.mem_append.mpr (Or.inl (hsub u hu))
          · rw [List.mem_singleton] at hu
            subst hu
            rw [hsess]
            exact List.mem_append.mpr (Or.inr (List.mem_singleton_self u))
        · intro u hu
          rw [hqueue] at hu
          rcases List.mem_append.mp hu with hu | hu
          · rw [hsess]
            exact List.mem_append.mpr (Or.inl (hq u hu))
          · rw [List.mem_singleton] at hu
            subst hu
            rw [hsess]
            exact List.mem_append.mpr (Or.inr (List.mem_singleton_self u))
      have hres := ih (tryEnqueue nu r s).2 G (lg ++ [nu]) hinv2
      refine ⟨hres.1, fun x hx => hres.2 x ?_⟩
      rw [hsess]
      exact List.mem_append.mpr (Or.inl hx)

theorem stepCrawl_inv (s : CrawlState) (e : CEvent) (G : List Str)
    (h : G.Nodup ∧ (∀ u ∈ G, u ∈ s.session) ∧
      (∀ u ∈ s.queue, u ∈ s.session)) :
    ((G ++ (stepCrawl s e).2).Nodup ∧
     (∀ u ∈ G ++ (stepCrawl s e).2, u ∈ (stepCrawl s e).1.session) ∧
     (∀ u ∈ (stepCrawl s e).1.queue, u ∈ (stepCrawl s e).1.session)) ∧
    (∀ x ∈ s.session, x ∈ (stepCrawl s e).1.session) := by
  cases e with
  | dequeue =>
    simp only [stepCrawl]
    refine ⟨⟨by simpa using h.1, ?_, ?_⟩, fun x hx => hx⟩
    · intro u hu
      rw [List.append_nil] at hu
      exact h.2.1 u hu
    · intro u hu
      rcases hq : s.queue with _ | ⟨a, t⟩
      · rw [hq] at hu
        simp at hu
      · rw [hq] at hu
        exact h.2.2 u (by rw [hq]; exact List.mem_cons_of_mem a hu)
  | checkpoint =>
    simp only [stepCrawl]
    refine ⟨⟨by simpa using h.1, ?_, h.2.2⟩, fun x hx => hx⟩
    intro u hu
    rw [List.append_nil] at hu
    exact h.2.1 u hu
  | process url page ev =>
    simp only [stepCrawl]
    by_cases hex : url_exists_in_index url s.fs.csv ev.readOk
    · rw [if_pos hex]
      refine ⟨⟨by simpa using h.1, ?_, h.2.2⟩, fun x hx => hx⟩
      intro u hu
      rw [List.append_nil] at hu
      exact h.2.1 u hu
    · rw [if_neg hex]
      cases page with
      | none =>
        refine ⟨⟨by simpa using h.1, ?_, h.2.2⟩, fun x hx => hx⟩
        intro u hu
        rw [List.append_nil] at hu
        exact h.2.1 u hu
      | some pg =>
        dsimp only
        by_cases hw :
            (write_content_file pg.1 s.currentIndex url s.fs ev).1 = true
        · rw [if_pos hw]
          have hall := enqueueAll_inv ev.readOk
            (extract_valid_urls pg.2 url s.host)
            ⟨s.host, s.queue, s.session, s.currentIndex + 1,
              (write_content_file pg.1 s.currentIndex url s.fs ev).2⟩
            G []
            (by
              rw [List.append_nil]
              exact ⟨h.1, h.2.1, h.2.2⟩)
          exact ⟨hall.1, fun x hx => hall.2 x hx⟩
        · rw [if_neg hw]
          refine ⟨⟨by simpa using h.1, ?_, h.2.2⟩, fun x hx => hx⟩
          intro u hu
          rw [List.append_nil] at hu
          exact h.2.1 u hu

theorem runCrawl_inv (events : List CEvent) :
    ∀ (s : CrawlState) (G : List Str),
      (G.Nodup ∧ (∀ u ∈ G, u ∈ s.session) ∧
        (∀ u ∈ s.queue, u ∈ s.session)) →
      ((G ++ (runCrawl s events).2).Nodup ∧
       (∀ u ∈ G ++ (runCrawl s events).2,
         u ∈ (runCrawl s events).1.session) ∧
       (∀ u ∈ (runCrawl s events).1.queue,
         u ∈ (runCrawl s events).1.session)) ∧
      (∀ x ∈ s.session, x ∈ (runCrawl s events).1.session) := by
  induction events with
  | nil =>
    intro s G h
    simp only [runCrawl]
    refine ⟨⟨by simpa using h.1, ?_, h.2.2⟩, fun x hx => hx⟩
    intro u hu
    rw [List.append_nil] at hu
    exact h.2.1 u hu
  | cons e es ih =>
    intro s G h
    simp only [runCrawl]
    have h1 := stepCrawl_inv s e G h
    have h2 := ih (stepCrawl s e).1 (G ++ (stepCrawl s e).2) h1.1
    refine ⟨⟨?_, ?_, h2.1.2.2⟩, fun x hx => h2.2 x (h1.2 x hx)⟩
    · rw [← List.append_assoc]
      exact h2.1.1
    · intro u hu
      apply h2.1.2.1
      rw [← List.append_assoc] at hu
      exact hu

theorem seedStep_inv (r : Bool) (url : Str) (acc : CrawlState × List Str)
    (h : acc.2.Nodup ∧ (∀ u ∈ acc.2, u ∈ acc.1.session) ∧
      (∀ u ∈ acc.1.queue, u ∈ acc.1.session)) :
    ((seedStep r acc url).2.Nodup ∧
     (∀ u ∈ (seedStep r acc url).2, u ∈ (seedStep r acc url).1.session) ∧
     (∀ u ∈ (seedStep r acc url).1.queue,
       u ∈ (seedStep r acc url).1.session)) ∧
    (∀ x ∈ acc.1.session, x ∈ (seedStep r acc url).1.session) := by
  unfold seedStep
  dsimp only
  split
  case isFalse => exact ⟨h, fun x hx => hx⟩
  case isTrue hval =>
    by_cases hmem : url ∉ acc.1.session
    · rw [if_pos hmem]
      obtain ⟨hnd, hsub, hq⟩ := h
      refine ⟨⟨?_, ?_, ?_⟩, ?_⟩
      · rw [List.nodup_append]
        refine ⟨hnd, List.nodup_singleton url, ?_⟩
        intro a ha hb
        rw [List.mem_singleton] at hb
        subst hb
        exact hmem (hsub a ha)
      · intro u hu
        rcases List.mem_append.mp hu with hu | hu
        · exact List.mem_append.mpr (Or.inl (hsub u hu))
        · rw [List.mem_singleton] at hu
          subst hu
          exact List.mem_append.mpr (Or.inr (List.mem_singleton_self u))
      · intro u hu
        rcases List.mem_append.mp hu with hu | hu
        · exact List.mem_append.mpr (Or.inl (hq u hu))
        · rw [List.mem_singleton] at hu
          subst hu
          exact List.mem_append.mpr (Or.inr (List.mem_singleton_self u))
      · intro x hx
        exact List.mem_append.mpr (Or.inl hx)
    · rw [if_neg hmem]
      exact ⟨h, fun x hx => hx⟩

theorem seedFold_inv (r : Bool) (urls : List Str) :
    ∀ acc : CrawlState × List Str,
      (acc.2.Nodup ∧ (∀ u ∈ acc.2, u ∈ acc.1.session) ∧
        (∀ u ∈ acc.1.queue, u ∈ acc.1.session)) →
      (((urls.foldl (seedStep r) acc).2.Nodup ∧
        (∀ u ∈ (urls.foldl (seedStep r) acc).2,
          u ∈ (urls.foldl (seedStep r) acc).1.session) ∧
        (∀ u ∈ (urls.foldl (seedStep r) acc).1.queue,
          u ∈ (urls.foldl (seedStep r) acc).1.session)) ∧
       (∀ x ∈ acc.1.session,
         x ∈ (urls.foldl (seedStep r) acc).1.session)) := by
  induction urls with
  | nil => exact fun acc h => ⟨h, fun x hx => hx⟩
  | cons u t ih =>
    intro acc h
    rw [List.foldl_cons]
    have h1 := seedStep_inv r u acc h
    have h2 := ih (seedStep r acc u) h1.1
    exact ⟨h2.1, fun x hx => h2.2 x (h1.2 x hx)⟩

theorem initCrawler_inv (host : Str) (seeds : List Str) (qf : Option Str)
    (csv0 : CsvFile) (r : Bool) :
    (initCrawler host seeds qf csv0 r).2.Nodup ∧
    (∀ u ∈ (initCrawler host seeds qf csv0 r).2,
      u ∈ (initCrawler host seeds qf csv0 r).1.session) ∧
    (∀ u ∈ (initCrawler host seeds qf csv0 r).1.queue,
      u ∈ (initCrawler host seeds qf csv0 r).1.session) := by
  unfold initCrawler
  dsimp only
  split
  · exact (seedFold_inv r seeds _
      ⟨List.nodup_nil, by simp, fun u hu => hu⟩).1
  · exact ⟨List.nodup_nil, by simp, fun u hu => hu⟩

/-- C6: within a single run no URL is enqueued twice (the concatenated
seeding and worker enqueue logs are duplicate-free), every queued URL is in
the session set after any sequence of operations, and the session set only
ever grows. -/
theorem claim6_session_invariants :
    ∀ (host : Str) (seeds : List Str) (qf : Option Str) (csv0 : CsvFile)
      (r : Bool) (events : List CEvent),
      ((initCrawler host seeds qf csv0 r).2 ++
        (runCrawl (initCrawler host seeds qf csv0 r).1 events).2).Nodup ∧
      (∀ u ∈ (runCrawl (initCrawler host seeds qf csv0 r).1 events).1.queue,
        u ∈ (runCrawl (initCrawler host seeds qf csv0 r).1
          events).1.session) ∧
      (∀ u ∈ (initCrawler host seeds qf csv0 r).1.session,
        u ∈ (runCrawl (initCrawler host seeds qf csv0 r).1
          events).1.session) := by
  intro host seeds qf csv0 r events
  have hi := initCrawler_inv host seeds qf csv0 r
  have hr := runCrawl_inv events (initCrawler host seeds qf csv0 r).1
    (initCrawler host seeds qf csv0 r).2 hi
  exact ⟨hr.1.1, hr.1.2.2, fun u hu => hr.2 u hu⟩

theorem claim6_witness :
    "https://ksu.edu.sa".data ∈
      (runCrawl (initCrawler "ksu.edu.sa".data ["https://ksu.edu.sa".data]
        none none true).1 []).1.session :=
  (claim6_session_invariants "ksu.edu.sa".data ["https://ksu.edu.sa".data]
    none none true []).2.2 "https://ksu.edu.sa".data (by decide)
